import Mathlib

/-!
Shallow embedding of the schedule-resolution logic of the
stm-metro-realtime repository.  The repository holds four server
variants: `server.js` contains a stop-time-based variant (namespace
`SrvA` below) and a frequency-based variant (`SrvB`); the two unnamed
sources are a headway-estimate variant (`P0`) and a second
frequency-based variant (`P1`).  Times are seconds since midnight as
`Nat` (GTFS times may exceed 86400); CSV row fields are `String`s,
compared exactly as the JavaScript does (string equality, lexicographic
`<` / `<=` on `YYYYMMDD` date strings).
-/

namespace STM

/-- Weekday key used to select the calendar flag (the JS sources map the
formatted weekday, or `Date.getDay`, to the lowercase column name). -/
inductive Weekday
  | monday | tuesday | wednesday | thursday | friday | saturday | sunday
deriving DecidableEq

/-- A `calendar_dates.txt` row: `service_id,date,exception_type`. -/
structure CalDateRow where
  service_id : String
  date : String
  exception_type : String
deriving DecidableEq

/-- A `calendar.txt` row (same column set in every variant). -/
structure CalRow where
  service_id : String
  start_date : String
  end_date : String
  monday : String
  tuesday : String
  wednesday : String
  thursday : String
  friday : String
  saturday : String
  sunday : String
deriving DecidableEq

/-- `row[weekdayKey]`: the flag column selected by the weekday key. -/
def CalRow.flag (c : CalRow) : Weekday → String
  | .monday => c.monday
  | .tuesday => c.tuesday
  | .wednesday => c.wednesday
  | .thursday => c.thursday
  | .friday => c.friday
  | .saturday => c.saturday
  | .sunday => c.sunday

/-- JS `Set.add` on an insertion-ordered list of strings. -/
def setAdd (acc : List String) (s : String) : List String :=
  if s ∈ acc then acc else acc ++ [s]

/-- JS `Set.delete`. -/
def setDel (acc : List String) (s : String) : List String :=
  acc.filter (fun x => x ≠ s)

/-- JS `Map.set` on an insertion-ordered association list: overwrites the
value of an existing key in place, otherwise appends. -/
def mapSet (m : List (String × α)) (k : String) (v : α) : List (String × α) :=
  if m.any (fun p => p.1 == k) then
    m.map (fun p => if p.1 == k then (k, v) else p)
  else m ++ [(k, v)]

/-- JS `Map.get` (first match; keys are unique by construction). -/
def mapLookup (m : List (String × α)) (k : String) : Option α :=
  (m.find? (fun p => p.1 == k)).map (·.2)

namespace SrvA

/-- `activeServiceIdsForToday` (stop-time variant of `server.js`):
base set from `calendar.txt` rows whose date range contains `today` and
whose weekday flag is `"1"`, then `calendar_dates.txt` exceptions applied
in input order — `exception_type` `"1"` adds, `"2"` deletes. -/
def activeServiceIdsForToday (today : String) (wk : Weekday)
    (calendar : List CalRow) (calendarDates : List CalDateRow) : List String :=
  let base := calendar.foldl (fun acc c =>
    if today < c.start_date ∨ c.end_date < today then acc
    else if c.flag wk ≠ "1" then acc
    else setAdd acc c.service_id) []
  calendarDates.foldl (fun acc cd =>
    if cd.date ≠ today then acc
    else if cd.exception_type = "1" then setAdd acc cd.service_id
    else if cd.exception_type = "2" then setDel acc cd.service_id
    else acc) base

end SrvA

/-- A frequency window / block `{startSec, endSec, headwaySec}` as parsed
from `frequencies.txt` by the frequency variants. -/
structure FreqWindow where
  startSec : Nat
  endSec : Nat
  headwaySec : Nat
deriving DecidableEq

namespace P1

/-- The `calendar.txt` info record kept per service by
`loadServiceIdsForToday` (source fields `start` / `end` / the seven
weekday flags; `start`/`end` are renamed `startDate`/`endDate` since
`end` is reserved). -/
structure CalInfo where
  startDate : String
  endDate : String
  monday : String
  tuesday : String
  wednesday : String
  thursday : String
  friday : String
  saturday : String
  sunday : String
deriving DecidableEq

/-- `info[dow]` for `loadServiceIdsForToday`. -/
def CalInfo.flag (c : CalInfo) : Weekday → String
  | .monday => c.monday
  | .tuesday => c.tuesday
  | .wednesday => c.wednesday
  | .thursday => c.thursday
  | .friday => c.friday
  | .saturday => c.saturday
  | .sunday => c.sunday

/-- The `calendar` map built by `loadServiceIdsForToday`:
`service_id -> {start, end, dowFlags}` via `Map.set` per row. -/
def calendarMap (rows : List CalRow) : List (String × CalInfo) :=
  rows.foldl (fun m r =>
    mapSet m r.service_id
      ⟨r.start_date, r.end_date, r.monday, r.tuesday, r.wednesday,
       r.thursday, r.friday, r.saturday, r.sunday⟩) []

/-- The `exceptions` map built by `loadServiceIdsForToday`:
`service_id -> exception_type`, only for rows whose `date` equals
`today`; a later row for the same service overwrites an earlier one. -/
def exceptionsMap (today : String) (rows : List CalDateRow) : List (String × String) :=
  rows.foldl (fun m r =>
    if r.date = today then mapSet m r.service_id r.exception_type else m) []

/-- `loadServiceIdsForToday` (second frequency variant): iterates the
calendar map; a service whose date range contains `today` is skipped
when its (for-today) exception is `"2"`, added when it is `"1"`, and
otherwise added exactly when its weekday flag is `"1"`. -/
def loadServiceIdsForToday (today : String) (dow : Weekday)
    (calendar : List CalRow) (calendarDates : List CalDateRow) : List String :=
  let exs := exceptionsMap today calendarDates
  (calendarMap calendar).foldl (fun active p =>
    if ¬(p.2.startDate ≤ today ∧ today ≤ p.2.endDate) then active
    else
      match mapLookup exs p.1 with
      | some ex =>
        if ex = "2" then active
        else if ex = "1" then setAdd active p.1
        else if p.2.flag dow = "1" then setAdd active p.1
        else active
      | none =>
        if p.2.flag dow = "1" then setAdd active p.1
        else active) []

/-- The `next` value computed inside `nextTwoFromFrequencies` for one
window: `start` when `now <= start`, otherwise
`start + Math.ceil((now - start) / headway) * headway` (the JS `ceil` of
a positive ratio, rendered as `(a + h - 1) / h` on `Nat`). -/
def wNext (now : Nat) (w : FreqWindow) : Nat :=
  if now ≤ w.startSec then w.startSec
  else w.startSec +
    ((now - w.startSec + w.headwaySec - 1) / w.headwaySec) * w.headwaySec

/-- The candidates one window pushes in `nextTwoFromFrequencies`: nothing
when `now > end`, otherwise `next + i*headway` for `i < 2`, each kept
only while `<= end`. -/
def windowCands (now : Nat) (w : FreqWindow) : List Nat :=
  if w.endSec < now then []
  else ((List.range 2).map (fun i => wNext now w + i * w.headwaySec)).filter
    (fun t => t ≤ w.endSec)

/-- The `uniq` loop of `nextTwoFromFrequencies`: skip a candidate equal
to the last kept one, push otherwise, stop once two are kept. -/
def uniqTwoGo : List Nat → List Nat → List Nat
  | acc, [] => acc
  | acc, t :: rest =>
    if acc ≠ [] ∧ acc.getLastD 0 = t then uniqTwoGo acc rest
    else if 2 ≤ (acc ++ [t]).length then acc ++ [t]
    else uniqTwoGo (acc ++ [t]) rest

/-- `nextTwoFromFrequencies`: per-window candidates collected in window
order, sorted ascending, then the first two distinct ones kept. -/
def nextTwoFromFrequencies (nowSec : Nat) (windows : List FreqWindow) : List Nat :=
  let candidates := windows.foldl (fun acc w => acc ++ windowCands nowSec w) []
  uniqTwoGo [] (candidates.insertionSort (· ≤ ·))

/-- `formatNext`: `"Arrive"` when at most 60 seconds away, otherwise
`Math.round(secFromNow / 60)` minutes (half-minutes round up). -/
def formatNext (secFromNow : Int) : String :=
  if secFromNow ≤ 60 then "Arrive"
  else toString ((secFromNow + 30).toNat / 60) ++ " min"

end P1

namespace SrvB

/-- The per-block candidate push of `computeNextTwoDepartures` (frequency
variant of `server.js`): `start` when `now <= start`, nothing when
`now > end`, otherwise the ceil-rounded next departure if still
`<= end`. -/
def blockCands (now : Nat) (b : FreqWindow) : List Nat :=
  if now ≤ b.startSec then [b.startSec]
  else if b.endSec < now then []
  else
    let k := (now - b.startSec + b.headwaySec - 1) / b.headwaySec
    let next := b.startSec + k * b.headwaySec
    if next ≤ b.endSec then [next] else []

/-- The selection loop of `computeNextTwoDepartures`: walk the sorted
candidates, keep a time not yet kept (`!nextTwo.includes(t)`), stop at
two. -/
def firstTwoGo : List Nat → List Nat → List Nat
  | acc, [] => acc
  | acc, t :: rest =>
    if 2 ≤ acc.length then acc
    else firstTwoGo (if t ∈ acc then acc else acc ++ [t]) rest

/-- `computeNextTwoDepartures`: per-block candidates, global ascending
sort, first two distinct; when exactly one candidate `t1` survives, the
first block containing `t1` is searched and `t1 + headway` appended when
it still fits in that block. -/
def computeNextTwoDepartures (now : Nat) (freqBlocks : List FreqWindow) : List Nat :=
  let candidates := freqBlocks.foldl (fun acc b => acc ++ blockCands now b) []
  let nextTwo := firstTwoGo [] (candidates.insertionSort (· ≤ ·))
  if nextTwo.length = 1 then
    let t1 := nextTwo.getD 0 0
    match freqBlocks.find? (fun b => b.startSec ≤ t1 && t1 ≤ b.endSec) with
    | some block =>
      if t1 + block.headwaySec ≤ block.endSec then nextTwo ++ [t1 + block.headwaySec]
      else nextTwo
    | none => nextTwo
  else nextTwo

/-- `formatAsArriveOrMinutes`: delta from now, `"Arrive"` when at most
60 seconds, otherwise `Math.round(delta / 60)` minutes. -/
def formatAsArriveOrMinutes (departSec now : Nat) : String :=
  let delta : Int := (departSec : Int) - (now : Int)
  if delta ≤ 60 then "Arrive"
  else toString ((delta + 30).toNat / 60) ++ " min"

end SrvB

namespace SrvA

/-- A `routes.txt` row (the columns the stop-time variant reads). -/
structure RouteRow where
  route_id : String
  route_short_name : String
deriving DecidableEq

/-- A `trips.txt` row (the columns the stop-time variant reads). -/
structure TripRow where
  trip_id : String
  route_id : String
  service_id : String
deriving DecidableEq

/-- A `stop_times.txt` row (the columns the stop-time variant reads;
an absent time field is the empty string, which is falsy in JS). -/
structure StopTimeRow where
  trip_id : String
  stop_id : String
  departure_time : String
  arrival_time : String
deriving DecidableEq

/-- The split of a character sequence on `':'` (JS `t.split(":")`,
rendered over the string's character list). -/
def splitColon : List Char → List (List Char)
  | [] => [[]]
  | c :: rest =>
    let r := splitColon rest
    if c = ':' then [] :: r
    else
      match r with
      | [] => [[c]]
      | h :: tl => (c :: h) :: tl

/-- Numeric parse of one time field: JS `Number` on the decimal-digit
fields GTFS uses — `NaN` (here `none`) when empty or non-digit. -/
def parseNum (l : List Char) : Option Nat :=
  if l ≠ [] ∧ l.all (·.isDigit) then
    some (l.foldl (fun n c => n * 10 + (c.toNat - 48)) 0)
  else none

/-- `parseGtfsTimeToSeconds`: split on `":"`, read the first three
fields as numbers, `null` when any is missing or non-numeric. -/
def parseGtfsTimeToSeconds (t : String) : Option Nat :=
  let parts := (splitColon t.data).map parseNum
  match parts.getD 0 none, parts.getD 1 none, parts.getD 2 none with
  | some hh, some mm, some ss => some (hh * 3600 + mm * 60 + ss)
  | _, _, _ => none

/-- JS `String.prototype.trim`: drop whitespace from both ends
(rendered over the character list). -/
def trimChars (l : List Char) : List Char :=
  ((l.dropWhile (·.isWhitespace)).reverse.dropWhile (·.isWhitespace)).reverse

/-- The `wantedRouteIds` set of `buildIndexesFromGtfsDir`: route ids
whose trimmed `route_short_name` equals the configured short name. -/
def wantedRouteIds (routes : List RouteRow) (shortName : String) : List String :=
  (routes.filter (fun r => trimChars r.route_short_name.data == shortName.data)).map
    (·.route_id)

/-- The `tripsById` map of `buildIndexesFromGtfsDir`, restricted to the
wanted routes: `trip_id -> service_id`. -/
def tripsById (trips : List TripRow) (wanted : List String) : List (String × String) :=
  trips.foldl (fun m t =>
    if t.route_id ∈ wanted then mapSet m t.trip_id t.service_id else m) []

/-- The `departuresByService` map of `buildIndexesFromGtfsDir`: for each
stop-time row at the target stop whose trip was kept, the parsed
departure time (falling back to the arrival time) is appended to that
trip's service list; each list is then sorted ascending. -/
def departuresByService (stopTimes : List StopTimeRow) (stopId : String)
    (trips : List (String × String)) : List (String × List Nat) :=
  let raw := stopTimes.foldl (fun m st =>
    if st.stop_id ≠ stopId then m
    else
      match mapLookup trips st.trip_id with
      | none => m
      | some sid =>
        let depTime := if st.departure_time ≠ "" then st.departure_time else st.arrival_time
        match parseGtfsTimeToSeconds depTime with
        | none => m
        | some depSec =>
          match mapLookup m sid with
          | none => mapSet m sid [depSec]
          | some l => mapSet m sid (l ++ [depSec])) []
  raw.map (fun p => (p.1, p.2.insertionSort (· ≤ ·)))

/-- The binary-search loop of `nextTwoDepartures`: find an index whose
departure is `>= now`, halving `[lo, hi]`; `idx` starts at the list
length and is lowered to `mid` whenever `list[mid] >= now`.  `hi` is an
`Int` because JS lets it reach `-1`.  The structural `fuel` argument is
the loop measure `(hi + 1 - lo)`, which strictly decreases on every
iteration, so the `fuel = 0` fallback coincides with the loop's own exit
condition `lo > hi` (`bsearchFuel_eq_of_le` below checks this). -/
def bsearchFuel (l : List Nat) (now : Nat) : Nat → Nat → Int → Nat → Nat
  | 0, _, _, idx => idx
  | fuel + 1, lo, hi, idx =>
    if (lo : Int) ≤ hi then
      let mid := (lo + hi.toNat) / 2
      if now ≤ l.getD mid 0 then bsearchFuel l now fuel lo ((mid : Int) - 1) mid
      else bsearchFuel l now fuel (mid + 1) hi idx
    else idx

/-- The binary search entered with `lo = 0`, `hi = len - 1`,
`idx = len`, supplied with exactly its measure as fuel. -/
def bsearchGo (l : List Nat) (now : Nat) (lo : Nat) (hi : Int) (idx : Nat) : Nat :=
  bsearchFuel l now (hi + 1 - lo).toNat lo hi idx

/-- One active service's contribution in `nextTwoDepartures`: the
departures `list[idx] .. list[min(idx+6, len) - 1]` where `idx` is the
binary-search result. -/
def serviceCands (now : Nat) (l : List Nat) : List Nat :=
  let idx := bsearchGo l now 0 ((l.length : Int) - 1) l.length
  (l.drop idx).take 6

/-- The candidate list of `nextTwoDepartures`: per active service, look
up its departure list (skipping missing or empty lists) and push that
service's contribution. -/
def candidatesA (now : Nat) (active : List String) (deps : List (String × List Nat)) : List Nat :=
  active.foldl (fun acc sid =>
    match mapLookup deps sid with
    | none => acc
    | some l => if l.length = 0 then acc else acc ++ serviceCands now l) []

/-- The `uniq` loop of `nextTwoDepartures`: push a candidate when the
list is empty or the candidate is more than 10 seconds away from the
last kept one; stop once two are kept.  `Math.abs` on `Nat` is the
absolute difference. -/
def uniqTolGo : List Nat → List Nat → List Nat
  | acc, [] => acc
  | acc, c :: rest =>
    if 2 ≤ acc.length then acc
    else uniqTolGo
      (if acc.length = 0 ∨ 10 < max c (acc.getLastD 0) - min c (acc.getLastD 0)
       then acc ++ [c] else acc) rest

/-- `nextTwoDepartures` (stop-time variant): sorted candidates, the
tolerance-deduped first two, `null` when none remain, otherwise the
clamped deltas `max(0, depSec - now)`. -/
def nextTwoDepartures (now : Nat) (active : List String)
    (deps : List (String × List Nat)) : Option (List Int) :=
  let uniq := uniqTolGo [] ((candidatesA now active deps).insertionSort (· ≤ ·))
  if uniq = [] then none
  else some (uniq.map (fun (depSec : Nat) => max 0 ((depSec : Int) - (now : Int))))

/-- `formatDeltaToLabel`: `"Arrive"` strictly below 60 seconds,
otherwise `Math.round(deltaSec / 60)` minutes. -/
def formatDeltaToLabel (deltaSec : Int) : String :=
  if deltaSec < 60 then "Arrive"
  else toString ((deltaSec + 30).toNat / 60) ++ " min"

/-- The `/next` handler of the stop-time variant: the out-of-service
text when `nextTwoDepartures` yields `null` or an empty list, otherwise
the two formatted lines (an absent second delta renders `"—"`). -/
def nextHandlerA (now : Nat) (today : String) (wk : Weekday)
    (calendar : List CalRow) (calendarDates : List CalDateRow)
    (deps : List (String × List Nat)) : String :=
  match nextTwoDepartures now (activeServiceIdsForToday today wk calendar calendarDates) deps with
  | none => "Hors période de service\n—"
  | some deltas =>
    if deltas = [] then "Hors période de service\n—"
    else
      let line1 := formatDeltaToLabel (deltas.getD 0 0)
      let line2 := match deltas.get? 1 with
        | some d => formatDeltaToLabel d
        | none => "—"
      line1 ++ "\n" ++ line2

end SrvA

namespace P0

/-- A `trips.txt` row as read by the headway variant. -/
structure Trip0 where
  trip_id : String
  route_id : String
  service_id : String
  trip_headsign : String
deriving DecidableEq

/-- A `frequencies.txt` row as read by the headway variant (raw string
fields; times parsed on use). -/
structure Freq0 where
  trip_id : String
  start_time : String
  end_time : String
  headway_secs : String
deriving DecidableEq

/-- JS `String.prototype.includes` for a fixed non-empty needle:
`splitOn` yields more than one piece exactly when the needle occurs. -/
def strIncludes (s sub : String) : Bool :=
  (s.splitOn sub).length ≠ 1

/-- `hhmmssToSeconds`: split on `":"`, `h*3600 + m*60 + (sec || 0)`
(a missing seconds field counts as 0, per the JS `|| 0`). -/
def hhmmssToSeconds (s : String) : Nat :=
  let ps := (s.splitOn ":").map (fun x => x.toNat?.getD 0)
  ps.getD 0 0 * 3600 + ps.getD 1 0 * 60 + ps.getD 2 0

/-- `isServiceActive` (headway variant): exceptions for the
(service, date) pair first — any `"2"` forces inactive, else any `"1"`
forces active — then the service's calendar row decides by date range
and weekday flag. -/
def isServiceActive (serviceId dateStr : String) (dow : Weekday)
    (calendar : List CalRow) (calendarDates : List CalDateRow) : Bool :=
  let ex := calendarDates.filter (fun r => r.service_id == serviceId && r.date == dateStr)
  if ex.any (fun r => r.exception_type == "2") then false
  else if ex.any (fun r => r.exception_type == "1") then true
  else
    match calendar.find? (fun r => r.service_id == serviceId) with
    | none => false
    | some cal =>
      if dateStr < cal.start_date ∨ cal.end_date < dateStr then false
      else cal.flag dow == "1"

/-- `pickMetroTripForRoute`: the first trip on route `"4"` whose
lower-cased headsign contains `"berri"`. -/
def pickMetroTripForRoute (trips : List Trip0) : Option Trip0 :=
  (trips.filter (fun t =>
    t.route_id == "4" && strIncludes t.trip_headsign.toLower "berri")).head?

/-- `getCurrentHeadwaySeconds`: throws (`Except.error`) when no metro
trip is found; otherwise `null` (`Option.none`) when the trip's service
is inactive today or no frequency row of that trip covers the current
time `start <= t < end`, and the row's numeric headway otherwise. -/
def getCurrentHeadwaySeconds (trips : List Trip0) (frequencies : List Freq0)
    (calendar : List CalRow) (calendarDates : List CalDateRow)
    (dateStr : String) (dow : Weekday) (tSec : Nat) : Except String (Option Nat) :=
  match pickMetroTripForRoute trips with
  | none => .error "Trip métro ligne 4 introuvable dans le GTFS."
  | some trip =>
    if ¬(isServiceActive trip.service_id dateStr dow calendar calendarDates) then .ok none
    else
      match frequencies.find? (fun f =>
        f.trip_id == trip.trip_id
          && hhmmssToSeconds f.start_time ≤ tSec
          && tSec < hhmmssToSeconds f.end_time) with
      | none => .ok none
      | some freq => .ok (some (freq.headway_secs.toNat?.getD 0))

/-- `computeNextTwoFromHeadway`: the unavailable-data pair on a missing
or non-positive headway; otherwise the clock-anchored estimate
`nextIn = (h - now % h) % h` and `nextIn + h`, formatted (under 60
seconds → `"Arrive"`, else `~` rounded minutes). -/
def computeNextTwoFromHeadway (headway : Option Nat) (unixNow : Nat) : List String :=
  match headway with
  | none => ["Données indisponibles", "—"]
  | some h =>
    if h = 0 then ["Données indisponibles", "—"]
    else
      let nextIn := (h - unixNow % h) % h
      let next2In := nextIn + h
      let format := fun (sec : Nat) =>
        if sec < 60 then "Arrive" else "~" ++ toString ((sec + 30) / 60) ++ " min"
      [format nextIn, format next2In]

end P0

/-! ### Helper lemmas -/

/-- `(a + h - 1) / h * h` (the JS `Math.ceil(a / h) * h` for positive
integers) is at least `a`. -/
theorem le_ceil_mul (a h : Nat) (h0 : 0 < h) : a ≤ (a + h - 1) / h * h := by
  have hd : (a + h - 1) / h * h + (a + h - 1) % h = a + h - 1 := by
    rw [Nat.mul_comm]; exact Nat.div_add_mod _ _
  have hm : (a + h - 1) % h < h := Nat.mod_lt _ h0
  revert hd hm
  generalize (a + h - 1) / h * h = M
  generalize (a + h - 1) % h = R
  intro hd hm
  omega

/-- `(a + h - 1) / h * h` is below `a + h`: the ceil-rounded multiple is
the least one at or above `a`. -/
theorem ceil_mul_lt (a h : Nat) (h0 : 0 < h) : (a + h - 1) / h * h < a + h := by
  have hd : (a + h - 1) / h * h + (a + h - 1) % h = a + h - 1 := by
    rw [Nat.mul_comm]; exact Nat.div_add_mod _ _
  revert hd
  generalize (a + h - 1) / h * h = M
  intro hd
  omega

/-- The fuel argument never cuts the iteration short: any two fuels at
least the range measure `(hi + 1 - lo)` compute the same result, so
`SrvA.bsearchGo` is the loop's genuine fixpoint. -/
theorem bsearchFuel_eq_of_le (l : List Nat) (now : Nat) :
    ∀ (fuel₁ fuel₂ lo : Nat) (hi : Int) (idx : Nat),
      (hi + 1 - (lo : Int)).toNat ≤ fuel₁ →
      (hi + 1 - (lo : Int)).toNat ≤ fuel₂ →
      SrvA.bsearchFuel l now fuel₁ lo hi idx = SrvA.bsearchFuel l now fuel₂ lo hi idx := by
  intro fuel₁
  induction fuel₁ with
  | zero =>
    intro fuel₂ lo hi idx h1 h2
    have hcmp : ¬ ((lo : Int) ≤ hi) := by omega
    cases fuel₂ with
    | zero => rfl
    | succ m => simp [SrvA.bsearchFuel, hcmp]
  | succ n ih =>
    intro fuel₂ lo hi idx h1 h2
    by_cases hcmp : (lo : Int) ≤ hi
    · have hmeas : 1 ≤ (hi + 1 - (lo : Int)).toNat := by omega
      cases fuel₂ with
      | zero => omega
      | succ m =>
        have hlohi : (lo : Nat) ≤ hi.toNat := by omega
        have hmlo : lo ≤ (lo + hi.toNat) / 2 := by omega
        have hmhi : (lo + hi.toNat) / 2 ≤ hi.toNat := by omega
        simp only [SrvA.bsearchFuel, hcmp, if_true]
        by_cases hnow : now ≤ l.getD ((lo + hi.toNat) / 2) 0
        · simp only [hnow, if_true]
          exact ih m lo _ _ (by omega) (by omega)
        · simp only [hnow, if_false]
          exact ih m _ hi idx (by omega) (by omega)
    · cases fuel₂ with
      | zero => simp [SrvA.bsearchFuel, hcmp]
      | succ m => simp [SrvA.bsearchFuel, hcmp]

namespace P1

/-- Characterisation of `wNext` past the window start: it is a headway
multiple above `start`, at least `now` and within one headway of it. -/
theorem wNext_spec (now : Nat) (w : FreqWindow) (h0 : 0 < w.headwaySec)
    (hgt : w.startSec < now) :
    now ≤ wNext now w ∧ wNext now w < now + w.headwaySec ∧
      w.headwaySec ∣ (wNext now w - w.startSec) := by
  unfold wNext
  rw [if_neg (by omega)]
  have h1 := le_ceil_mul (now - w.startSec) w.headwaySec h0
  have h2 := ceil_mul_lt (now - w.startSec) w.headwaySec h0
  refine ⟨?_, ?_, ?_⟩
  · calc now = w.startSec + (now - w.startSec) := by omega
    _ ≤ w.startSec + (now - w.startSec + w.headwaySec - 1) / w.headwaySec * w.headwaySec :=
        Nat.add_le_add_left h1 _
  · calc w.startSec + (now - w.startSec + w.headwaySec - 1) / w.headwaySec * w.headwaySec
        < w.startSec + (now - w.startSec + w.headwaySec) := Nat.add_lt_add_left h2 _
    _ = now + w.headwaySec := by omega
  · rw [Nat.add_sub_cancel_left]
    exact dvd_mul_left _ _

/-- `wNext` never falls below the window start. -/
theorem start_le_wNext (now : Nat) (w : FreqWindow) : w.startSec ≤ wNext now w := by
  unfold wNext
  split
  · exact Nat.le_refl _
  · exact Nat.le_add_right _ _

/-- `wNext` never falls below `now`. -/
theorem now_le_wNext (now : Nat) (w : FreqWindow) (h0 : 0 < w.headwaySec) :
    now ≤ wNext now w := by
  unfold wNext
  split
  · omega
  · have h1 := le_ceil_mul (now - w.startSec) w.headwaySec h0
    omega

/-- A live window's candidate push, written as an explicit two-element
filter. -/
theorem windowCands_eq (now : Nat) (w : FreqWindow) (hnow : now ≤ w.endSec) :
    windowCands now w =
      [wNext now w, wNext now w + w.headwaySec].filter (fun t => t ≤ w.endSec) := by
  unfold windowCands
  rw [if_neg (by omega)]
  have h2 : List.range 2 = [0, 1] := rfl
  rw [h2]
  simp

/-- A dead window pushes nothing. -/
theorem windowCands_empty (now : Nat) (w : FreqWindow) (hnow : w.endSec < now) :
    windowCands now w = [] := by
  unfold windowCands
  rw [if_pos hnow]

end P1

namespace SrvB

/-- `computeNextTwoDepartures` over a single block pushing nothing. -/
theorem cNTD_nil (w : FreqWindow) (now : Nat) (hb : blockCands now w = []) :
    computeNextTwoDepartures now [w] = [] := by
  unfold computeNextTwoDepartures
  simp only [List.foldl_cons, List.foldl_nil, List.nil_append, hb]
  rfl

/-- `computeNextTwoDepartures` over a single block pushing one
candidate that the block itself contains: the block is found again and a
second departure one headway later is appended when it fits. -/
theorem cNTD_single (w : FreqWindow) (now t1 : Nat) (hb : blockCands now w = [t1])
    (h1 : w.startSec ≤ t1) (h2 : t1 ≤ w.endSec) :
    computeNextTwoDepartures now [w] =
      if t1 + w.headwaySec ≤ w.endSec then [t1, t1 + w.headwaySec] else [t1] := by
  unfold computeNextTwoDepartures
  simp only [List.foldl_cons, List.foldl_nil, List.nil_append, hb]
  have hsort : List.insertionSort (· ≤ ·) [t1] = [t1] := rfl
  rw [hsort]
  have hft : firstTwoGo [] [t1] = [t1] := rfl
  rw [hft]
  have hp : (decide (w.startSec ≤ t1) && decide (t1 ≤ w.endSec)) = true := by
    simp [h1, h2]
  have hlen : ([t1] : List Nat).length = 1 := rfl
  rw [if_pos hlen]
  show (match List.find? (fun b => decide (b.startSec ≤ t1) && decide (t1 ≤ b.endSec)) [w] with
    | some block =>
      if t1 + block.headwaySec ≤ block.endSec then [t1] ++ [t1 + block.headwaySec] else [t1]
    | none => [t1]) = _
  have hfind : List.find? (fun b => decide (b.startSec ≤ t1) && decide (t1 ≤ b.endSec)) [w]
      = some w := by
    simp only [List.find?, hp]
  rw [hfind]
  show (if t1 + w.headwaySec ≤ w.endSec then [t1] ++ [t1 + w.headwaySec] else [t1]) = _
  split
  · rfl
  · rfl

/-- `computeNextTwoDepartures` on one well-formed block agrees with the
two-candidate window projection of the other frequency variant. -/
theorem single_window (w : FreqWindow) (now : Nat)
    (hse : w.startSec ≤ w.endSec) :
    computeNextTwoDepartures now [w] =
      if w.endSec < now then []
      else [P1.wNext now w, P1.wNext now w + w.headwaySec].filter (fun t => t ≤ w.endSec) := by
  by_cases hdead : w.endSec < now
  · rw [if_pos hdead]
    apply cNTD_nil
    unfold blockCands
    rw [if_neg (by omega), if_pos hdead]
  · rw [if_neg hdead]
    by_cases hbef : now ≤ w.startSec
    · have hwn : P1.wNext now w = w.startSec := by unfold P1.wNext; rw [if_pos hbef]
      have hb : blockCands now w = [w.startSec] := by unfold blockCands; rw [if_pos hbef]
      rw [hwn, cNTD_single w now w.startSec hb (Nat.le_refl _) hse]
      by_cases hfit : w.startSec + w.headwaySec ≤ w.endSec
      · rw [if_pos hfit]
        simp [List.filter, hse, hfit]
      · rw [if_neg hfit]
        simp [List.filter, hse, hfit]
    · have hwn : P1.wNext now w =
          w.startSec + (now - w.startSec + w.headwaySec - 1) / w.headwaySec * w.headwaySec := by
        unfold P1.wNext; rw [if_neg hbef]
      by_cases hfit1 : P1.wNext now w ≤ w.endSec
      · have hb : blockCands now w = [P1.wNext now w] := by
          unfold blockCands
          rw [if_neg hbef, if_neg hdead]
          show (if w.startSec + (now - w.startSec + w.headwaySec - 1) / w.headwaySec *
              w.headwaySec ≤ w.endSec then
            [w.startSec + (now - w.startSec + w.headwaySec - 1) / w.headwaySec * w.headwaySec]
            else []) = [P1.wNext now w]
          rw [← hwn, if_pos hfit1]
        rw [cNTD_single w now _ hb (P1.start_le_wNext now w) hfit1]
        by_cases hfit2 : P1.wNext now w + w.headwaySec ≤ w.endSec
        · rw [if_pos hfit2]; simp [List.filter, hfit1, hfit2]
        · rw [if_neg hfit2]; simp [List.filter, hfit1, hfit2]
      · have hb : blockCands now w = [] := by
          unfold blockCands
          rw [if_neg hbef, if_neg hdead]
          show (if w.startSec + (now - w.startSec + w.headwaySec - 1) / w.headwaySec *
              w.headwaySec ≤ w.endSec then
            [w.startSec + (now - w.startSec + w.headwaySec - 1) / w.headwaySec * w.headwaySec]
            else []) = []
          rw [← hwn, if_neg hfit1]
        rw [cNTD_nil w now hb]
        have hfit2 : ¬ (P1.wNext now w + w.headwaySec ≤ w.endSec) := by omega
        simp [List.filter, hfit1, hfit2]

end SrvB

/-- `find?` over a list whose prefix everywhere fails the predicate
finds the first satisfying element. -/
theorem find?_first {α : Type} (p : α → Bool) :
    ∀ (pre post : List α) (b0 : α), (∀ b ∈ pre, p b = false) → p b0 = true →
      List.find? p (pre ++ b0 :: post) = some b0 := by
  intro pre
  induction pre with
  | nil =>
    intro post b0 _ hb
    show List.find? p (b0 :: post) = some b0
    unfold List.find?
    rw [hb]
  | cons a l ih =>
    intro post b0 hpre hb
    show List.find? p (a :: (l ++ b0 :: post)) = some b0
    unfold List.find?
    rw [hpre a (by simp)]
    exact ih post b0 (fun b hbm => hpre b (by simp [hbm])) hb

/-- Membership in a fold that appends one chunk per element. -/
theorem mem_foldl_append {β : Type} (f : β → List Nat) :
    ∀ (ws : List β) (acc : List Nat) (t : Nat),
      t ∈ ws.foldl (fun acc w => acc ++ f w) acc ↔ t ∈ acc ∨ ∃ w ∈ ws, t ∈ f w := by
  intro ws
  induction ws with
  | nil =>
    intro acc t
    simp
  | cons w ws ih =>
    intro acc t
    rw [List.foldl_cons, ih]
    simp [List.mem_append, or_assoc]

/-- The exact-equality selection loop appends a sublist of its input to
the accumulator. -/
theorem uniqTwoGo_append_sublist :
    ∀ (l acc : List Nat), ∃ l', P1.uniqTwoGo acc l = acc ++ l' ∧ l'.Sublist l := by
  intro l
  induction l with
  | nil =>
    intro acc
    exact ⟨[], by rw [P1.uniqTwoGo.eq_1]; simp, List.nil_sublist _⟩
  | cons t rest ih =>
    intro acc
    rw [P1.uniqTwoGo.eq_2]
    by_cases h1 : acc ≠ [] ∧ acc.getLastD 0 = t
    · rw [if_pos h1]
      obtain ⟨l', he, hs⟩ := ih acc
      exact ⟨l', he, hs.cons t⟩
    · rw [if_neg h1]
      by_cases h2 : 2 ≤ (acc ++ [t]).length
      · rw [if_pos h2]
        exact ⟨[t], rfl, (List.nil_sublist rest).cons₂ t⟩
      · rw [if_neg h2]
        obtain ⟨l', he, hs⟩ := ih (acc ++ [t])
        refine ⟨t :: l', ?_, hs.cons₂ t⟩
        rw [he, List.append_assoc]
        rfl

/-- The exact-equality selection loop never keeps more than two
entries, starting from at most one. -/
theorem uniqTwoGo_length_le :
    ∀ (l acc : List Nat), acc.length ≤ 1 → (P1.uniqTwoGo acc l).length ≤ 2 := by
  intro l
  induction l with
  | nil =>
    intro acc h
    rw [P1.uniqTwoGo.eq_1]
    omega
  | cons t rest ih =>
    intro acc h
    rw [P1.uniqTwoGo.eq_2]
    by_cases h1 : acc ≠ [] ∧ acc.getLastD 0 = t
    · rw [if_pos h1]
      exact ih acc h
    · rw [if_neg h1]
      by_cases h2 : 2 ≤ (acc ++ [t]).length
      · rw [if_pos h2]
        have hla : (acc ++ [t]).length = acc.length + 1 := by simp
        omega
      · rw [if_neg h2]
        refine ih (acc ++ [t]) ?_
        have hla : (acc ++ [t]).length = acc.length + 1 := by simp
        omega

/-- Membership after a JS-`Set.add`. -/
theorem mem_setAdd (acc : List String) (k s : String) :
    s ∈ setAdd acc k ↔ s ∈ acc ∨ s = k := by
  unfold setAdd
  split
  · rename_i hk
    constructor
    · exact Or.inl
    · rintro (h | rfl)
      · exact h
      · exact hk
  · simp [List.mem_append]

/-- Membership after a JS-`Set.delete`. -/
theorem mem_setDel (acc : List String) (k s : String) :
    s ∈ setDel acc k ↔ s ∈ acc ∧ s ≠ k := by
  unfold setDel
  simp [List.mem_filter]

/-- `find?` by key after a JS-`Map.set` of the same key. -/
theorem find?_mapSet_self {α : Type} :
    ∀ (m : List (String × α)) (k : String) (v : α),
      List.find? (fun p => p.1 == k) (mapSet m k v) = some (k, v) := by
  intro m k v
  unfold mapSet
  by_cases hany : m.any (fun p => p.1 == k) = true
  · rw [if_pos hany]
    induction m with
    | nil => simp at hany
    | cons p rest ih =>
      rw [List.any_cons] at hany
      rw [List.map_cons, List.find?_cons]
      by_cases hpk : (p.1 == k) = true
      · rw [if_pos hpk]
        simp
      · rw [if_neg hpk]
        have hf : (p.1 == k) = false := by revert hpk; cases p.1 == k <;> simp
        have hany2 : rest.any (fun p => p.1 == k) = true := by
          rw [hf] at hany
          simpa using hany
        simp only [hf]
        exact ih hany2
  · rw [if_neg hany]
    rw [List.find?_append]
    have hnone : List.find? (fun p => p.1 == k) m = none := by
      rw [List.find?_eq_none]
      intro x hx hpx
      exact hany (List.any_eq_true.mpr ⟨x, hx, hpx⟩)
    rw [hnone]
    simp

/-- `find?` by another key is unchanged by a JS-`Map.set`. -/
theorem find?_mapSet_ne {α : Type} :
    ∀ (m : List (String × α)) (k s : String) (v : α), k ≠ s →
      List.find? (fun p => p.1 == s) (mapSet m k v) =
        List.find? (fun p => p.1 == s) m := by
  intro m k s v hks
  unfold mapSet
  by_cases hany : m.any (fun p => p.1 == k) = true
  · rw [if_pos hany]
    clear hany
    induction m with
    | nil => rfl
    | cons p rest ih =>
      rw [List.map_cons, List.find?_cons, List.find?_cons]
      by_cases hpk : (p.1 == k) = true
      · rw [if_pos hpk]
        have hp1 : p.1 = k := by simpa using hpk
        have h1 : ((k, v).1 == s) = false := by simp [hks]
        have h2 : (p.1 == s) = false := by simp [hp1, hks]
        simp only [h1, h2, ih]
      · rw [if_neg hpk]
        by_cases hps : (p.1 == s) = true
        · simp only [hps]
        · have h2 : (p.1 == s) = false := by revert hps; cases p.1 == s <;> simp
          simp only [h2, ih]
  · rw [if_neg hany]
    rw [List.find?_append]
    have h1 : List.find? (fun p => p.1 == s) [(k, v)] = none := by simp [hks]
    rw [h1]
    cases List.find? (fun p => p.1 == s) m <;> rfl

/-- `Map.get` after `Map.set` of the same key. -/
theorem mapLookup_mapSet_self {α : Type} (m : List (String × α)) (k : String) (v : α) :
    mapLookup (mapSet m k v) k = some v := by
  unfold mapLookup
  rw [find?_mapSet_self]
  rfl

/-- `Map.get` of another key after `Map.set`. -/
theorem mapLookup_mapSet_ne {α : Type} (m : List (String × α)) (k s : String) (v : α)
    (h : k ≠ s) : mapLookup (mapSet m k v) s = mapLookup m s := by
  unfold mapLookup
  rw [find?_mapSet_ne m k s v h]

/-- The exception loop of `activeServiceIdsForToday` never re-adds a
service that has no further matching exception record. -/
theorem exc_foldl_not_mem (today s : String) :
    ∀ (l : List CalDateRow) (st : List String), s ∉ st →
      (∀ x ∈ l, ¬(x.service_id = s ∧ x.date = today)) →
      s ∉ l.foldl (fun acc cd =>
        if cd.date ≠ today then acc
        else if cd.exception_type = "1" then setAdd acc cd.service_id
        else if cd.exception_type = "2" then setDel acc cd.service_id
        else acc) st := by
  intro l
  induction l with
  | nil =>
    intro st h _
    exact h
  | cons x l ih =>
    intro st hst hx
    rw [List.foldl_cons]
    refine ih _ ?_ (fun y hy => hx y (List.mem_cons_of_mem x hy))
    by_cases hd : x.date ≠ today
    · rw [if_pos hd]
      exact hst
    · rw [if_neg hd]
      have hdt : x.date = today := not_not.mp hd
      have hxs : x.service_id ≠ s := fun he => hx x (List.mem_cons_self x l) ⟨he, hdt⟩
      by_cases h1 : x.exception_type = "1"
      · rw [if_pos h1, mem_setAdd]
        rintro (h | h)
        · exact hst h
        · exact hxs h.symm
      · rw [if_neg h1]
        by_cases h2 : x.exception_type = "2"
        · rw [if_pos h2, mem_setDel]
          rintro ⟨h, _⟩
          exact hst h
        · rw [if_neg h2]
          exact hst

/-- The exceptions-map fold of `loadServiceIdsForToday` preserves the
recorded exception of a service with no further matching record. -/
theorem exc_map_foldl_preserve (today s v : String) :
    ∀ (l : List CalDateRow) (st : List (String × String)),
      mapLookup st s = some v →
      (∀ x ∈ l, ¬(x.service_id = s ∧ x.date = today)) →
      mapLookup (l.foldl (fun m r =>
        if r.date = today then mapSet m r.service_id r.exception_type else m) st) s
        = some v := by
  intro l
  induction l with
  | nil =>
    intro st h _
    exact h
  | cons x l ih =>
    intro st hst hx
    rw [List.foldl_cons]
    refine ih _ ?_ (fun y hy => hx y (List.mem_cons_of_mem x hy))
    by_cases hd : x.date = today
    · rw [if_pos hd]
      have hxs : x.service_id ≠ s := fun he => hx x (List.mem_cons_self x l) ⟨he, hd⟩
      rw [mapLookup_mapSet_ne _ _ _ _ hxs]
      exact hst
    · rw [if_neg hd]
      exact hst

/-- The recorded exception of `s` in the exceptions map is the one of
the last matching `calendar_dates.txt` record. -/
theorem exceptionsMap_last (today s : String) (l₁ l₂ : List CalDateRow) (r : CalDateRow)
    (hr1 : r.service_id = s) (hr2 : r.date = today)
    (hl₂ : ∀ x ∈ l₂, ¬(x.service_id = s ∧ x.date = today)) :
    mapLookup (P1.exceptionsMap today (l₁ ++ r :: l₂)) s = some r.exception_type := by
  unfold P1.exceptionsMap
  rw [List.foldl_append, List.foldl_cons]
  apply exc_map_foldl_preserve today s _ l₂ _ _ hl₂
  rw [if_pos hr2, hr1]
  exact mapLookup_mapSet_self _ s _

/-- The main loop of `loadServiceIdsForToday` never adds a service whose
recorded exception is Removed. -/
theorem load_foldl_not_mem (today : String) (dow : Weekday)
    (exs : List (String × String)) (s : String)
    (hlook : mapLookup exs s = some "2") :
    ∀ (entries : List (String × P1.CalInfo)) (st : List String), s ∉ st →
      s ∉ entries.foldl (fun active p =>
        if ¬(p.2.startDate ≤ today ∧ today ≤ p.2.endDate) then active
        else
          match mapLookup exs p.1 with
          | some ex =>
            if ex = "2" then active
            else if ex = "1" then setAdd active p.1
            else if p.2.flag dow = "1" then setAdd active p.1
            else active
          | none =>
            if p.2.flag dow = "1" then setAdd active p.1
            else active) st := by
  intro entries
  induction entries with
  | nil =>
    intro st h
    exact h
  | cons p rest ih =>
    intro st hst
    rw [List.foldl_cons]
    apply ih
    by_cases hrange : ¬(p.2.startDate ≤ today ∧ today ≤ p.2.endDate)
    · rw [if_pos hrange]
      exact hst
    · rw [if_neg hrange]
      by_cases hps : p.1 = s
      · rw [hps, hlook]
        exact hst
      · cases hm : mapLookup exs p.1 with
        | none =>
          show s ∉ (if p.2.flag dow = "1" then setAdd st p.1 else st)
          split
          · rw [mem_setAdd]
            rintro (h | h)
            · exact hst h
            · exact hps h.symm
          · exact hst
        | some ex =>
          show s ∉ (if ex = "2" then st
            else if ex = "1" then setAdd st p.1
            else if p.2.flag dow = "1" then setAdd st p.1 else st)
          split
          · exact hst
          · split
            · rw [mem_setAdd]
              rintro (h | h)
              · exact hst h
              · exact hps h.symm
            · split
              · rw [mem_setAdd]
                rintro (h | h)
                · exact hst h
                · exact hps h.symm
              · exact hst

/-- Membership in the `calendar.txt` base fold of
`activeServiceIdsForToday`. -/
theorem mem_base_fold (today : String) (wk : Weekday) :
    ∀ (cal : List CalRow) (st : List String) (s : String),
      s ∈ cal.foldl (fun acc c =>
        if today < c.start_date ∨ c.end_date < today then acc
        else if c.flag wk ≠ "1" then acc
        else setAdd acc c.service_id) st ↔
      s ∈ st ∨ ∃ c ∈ cal, c.service_id = s ∧
        ¬(today < c.start_date ∨ c.end_date < today) ∧ c.flag wk = "1" := by
  intro cal
  induction cal with
  | nil =>
    intro st s
    simp
  | cons c cal ih =>
    intro st s
    rw [List.foldl_cons]
    by_cases h1 : today < c.start_date ∨ c.end_date < today
    · rw [if_pos h1, ih]
      simp only [List.exists_mem_cons_iff]
      constructor
      · rintro (h | h)
        · exact Or.inl h
        · exact Or.inr (Or.inr h)
      · rintro (h | (⟨_, hno, _⟩ | h))
        · exact Or.inl h
        · exact absurd h1 hno
        · exact Or.inr h
    · rw [if_neg h1]
      by_cases h2 : c.flag wk ≠ "1"
      · rw [if_pos h2, ih]
        simp only [List.exists_mem_cons_iff]
        constructor
        · rintro (h | h)
          · exact Or.inl h
          · exact Or.inr (Or.inr h)
        · rintro (h | (⟨_, _, hf⟩ | h))
          · exact Or.inl h
          · exact absurd hf h2
          · exact Or.inr h
      · rw [if_neg h2, ih, mem_setAdd]
        have h2' : c.flag wk = "1" := not_not.mp h2
        simp only [List.exists_mem_cons_iff]
        constructor
        · rintro ((h | h) | h)
          · exact Or.inl h
          · exact Or.inr (Or.inl ⟨h.symm, h1, h2'⟩)
          · exact Or.inr (Or.inr h)
        · rintro (h | (⟨h, _, _⟩ | h))
          · exact Or.inl (Or.inl h)
          · exact Or.inl (Or.inr h.symm)
          · exact Or.inr h

/-- Membership after the exception loop of `activeServiceIdsForToday`
comes from the initial set or from some exception record. -/
theorem exc_foldl_mem (today : String) :
    ∀ (l : List CalDateRow) (st : List String) (s : String),
      s ∈ l.foldl (fun acc cd =>
        if cd.date ≠ today then acc
        else if cd.exception_type = "1" then setAdd acc cd.service_id
        else if cd.exception_type = "2" then setDel acc cd.service_id
        else acc) st →
      s ∈ st ∨ ∃ x ∈ l, x.service_id = s := by
  intro l
  induction l with
  | nil =>
    intro st s h
    exact Or.inl h
  | cons x l ih =>
    intro st s h
    rw [List.foldl_cons] at h
    rcases ih _ s h with hmem | ⟨y, hy, hys⟩
    · by_cases hd : x.date ≠ today
      · rw [if_pos hd] at hmem
        exact Or.inl hmem
      · rw [if_neg hd] at hmem
        by_cases h1 : x.exception_type = "1"
        · rw [if_pos h1, mem_setAdd] at hmem
          rcases hmem with hmem | hmem
          · exact Or.inl hmem
          · exact Or.inr ⟨x, List.mem_cons_self x l, hmem.symm⟩
        · rw [if_neg h1] at hmem
          by_cases h2 : x.exception_type = "2"
          · rw [if_pos h2, mem_setDel] at hmem
            exact Or.inl hmem.1
          · rw [if_neg h2] at hmem
            exact Or.inl hmem
    · exact Or.inr ⟨y, List.mem_cons_of_mem x hy, hys⟩

/-- Without any exception record dated `today`, the exception loop of
`activeServiceIdsForToday` changes nothing. -/
theorem exc_foldl_id (today : String) :
    ∀ (l : List CalDateRow) (st : List String), (∀ x ∈ l, x.date ≠ today) →
      l.foldl (fun acc cd =>
        if cd.date ≠ today then acc
        else if cd.exception_type = "1" then setAdd acc cd.service_id
        else if cd.exception_type = "2" then setDel acc cd.service_id
        else acc) st = st := by
  intro l
  induction l with
  | nil =>
    intro st _
    rfl
  | cons x l ih =>
    intro st hx
    rw [List.foldl_cons, if_pos (hx x (List.mem_cons_self x l))]
    exact ih st (fun y hy => hx y (List.mem_cons_of_mem x hy))

/-- Without any exception record dated `today`, the exceptions map of
`loadServiceIdsForToday` is empty. -/
theorem exceptionsMap_of_none (today : String) :
    ∀ (l : List CalDateRow), (∀ x ∈ l, x.date ≠ today) →
      P1.exceptionsMap today l = [] := by
  have hgen : ∀ (l : List CalDateRow) (st : List (String × String)),
      (∀ x ∈ l, x.date ≠ today) →
      l.foldl (fun m r =>
        if r.date = today then mapSet m r.service_id r.exception_type else m) st = st := by
    intro l
    induction l with
    | nil =>
      intro st _
      rfl
    | cons x l ih =>
      intro st hx
      rw [List.foldl_cons, if_neg (hx x (List.mem_cons_self x l))]
      exact ih st (fun y hy => hx y (List.mem_cons_of_mem x hy))
  intro l hl
  exact hgen l [] hl

/-- An element of a JS-`Map.set` result is an original entry or carries
the set key. -/
theorem mem_mapSet {α : Type} (m : List (String × α)) (k : String) (v : α)
    (q : String × α) : q ∈ mapSet m k v → q ∈ m ∨ q.1 = k := by
  unfold mapSet
  split
  · intro hq
    rw [List.mem_map] at hq
    obtain ⟨p, hp, he⟩ := hq
    by_cases hpk : (p.1 == k) = true
    · rw [if_pos hpk] at he
      right
      rw [← he]
    · rw [if_neg hpk] at he
      left
      rw [← he]
      exact hp
  · intro hq
    rw [List.mem_append] at hq
    rcases hq with h | h
    · exact Or.inl h
    · right
      simp at h
      rw [h]

/-- Keys in the calendar map of `loadServiceIdsForToday` come from the
calendar rows. -/
theorem calendarMap_keys :
    ∀ (rows : List CalRow) (m : List (String × P1.CalInfo)) (q : String × P1.CalInfo),
      q ∈ rows.foldl (fun m r =>
        mapSet m r.service_id
          ⟨r.start_date, r.end_date, r.monday, r.tuesday, r.wednesday,
           r.thursday, r.friday, r.saturday, r.sunday⟩) m →
      q ∈ m ∨ ∃ r ∈ rows, q.1 = r.service_id := by
  intro rows
  induction rows with
  | nil =>
    intro m q h
    exact Or.inl h
  | cons r rows ih =>
    intro m q h
    rw [List.foldl_cons] at h
    rcases ih _ q h with hmem | ⟨r', hr', he⟩
    · rcases mem_mapSet _ _ _ _ hmem with hmem | hk
      · exact Or.inl hmem
      · exact Or.inr ⟨r, List.mem_cons_self r rows, hk⟩
    · exact Or.inr ⟨r', List.mem_cons_of_mem r hr', he⟩

/-- A JS-`Map.set` with a fresh key appends. -/
theorem mapSet_of_fresh {α : Type} (m : List (String × α)) (k : String) (v : α)
    (h : ∀ q ∈ m, q.1 ≠ k) : mapSet m k v = m ++ [(k, v)] := by
  unfold mapSet
  rw [if_neg]
  intro hany
  rw [List.any_eq_true] at hany
  obtain ⟨q, hq, hqk⟩ := hany
  exact h q hq (by simpa using hqk)

/-- With pairwise distinct service identifiers, the calendar map of
`loadServiceIdsForToday` is the row list itself. -/
theorem calendarMap_of_nodup :
    ∀ (rows : List CalRow) (m : List (String × P1.CalInfo)),
      (rows.map (·.service_id)).Nodup →
      (∀ r ∈ rows, ∀ q ∈ m, q.1 ≠ r.service_id) →
      rows.foldl (fun m r =>
        mapSet m r.service_id
          ⟨r.start_date, r.end_date, r.monday, r.tuesday, r.wednesday,
           r.thursday, r.friday, r.saturday, r.sunday⟩) m =
      m ++ rows.map (fun r =>
        (r.service_id,
          (⟨r.start_date, r.end_date, r.monday, r.tuesday, r.wednesday,
            r.thursday, r.friday, r.saturday, r.sunday⟩ : P1.CalInfo))) := by
  intro rows
  induction rows with
  | nil =>
    intro m _ _
    simp
  | cons r rows ih =>
    intro m hnd hfresh
    rw [List.foldl_cons,
      mapSet_of_fresh m r.service_id _ (fun q hq => hfresh r (List.mem_cons_self r rows) q hq)]
    rw [List.map_cons, List.nodup_cons] at hnd
    rw [ih (m ++ [_]) hnd.2 ?_]
    · rw [List.map_cons, List.append_assoc]
      rfl
    · intro r' hr' q hq
      rcases List.mem_append.mp hq with h | h
      · exact hfresh r' (List.mem_cons_of_mem r hr') q h
      · simp at h
        rw [h]
        intro he
        have he' : r.service_id = r'.service_id := he
        apply hnd.1
        rw [he']
        exact List.mem_map_of_mem (·.service_id) hr'

/-- Membership in the main loop of `loadServiceIdsForToday` when the
exceptions map is empty: exactly the in-range entries whose weekday flag
is set. -/
theorem load_foldl_mem_iff_no_exc (today : String) (dow : Weekday) :
    ∀ (entries : List (String × P1.CalInfo)) (st : List String) (s : String),
      s ∈ entries.foldl (fun active p =>
        if ¬(p.2.startDate ≤ today ∧ today ≤ p.2.endDate) then active
        else
          match mapLookup ([] : List (String × String)) p.1 with
          | some ex =>
            if ex = "2" then active
            else if ex = "1" then setAdd active p.1
            else if p.2.flag dow = "1" then setAdd active p.1
            else active
          | none =>
            if p.2.flag dow = "1" then setAdd active p.1
            else active) st ↔
      s ∈ st ∨ ∃ p ∈ entries, p.1 = s ∧
        (p.2.startDate ≤ today ∧ today ≤ p.2.endDate) ∧ p.2.flag dow = "1" := by
  intro entries
  induction entries with
  | nil =>
    intro st s
    simp
  | cons p rest ih =>
    intro st s
    rw [List.foldl_cons]
    have hred : (if ¬(p.2.startDate ≤ today ∧ today ≤ p.2.endDate) then st
        else
          match mapLookup ([] : List (String × String)) p.1 with
          | some ex =>
            if ex = "2" then st
            else if ex = "1" then setAdd st p.1
            else if p.2.flag dow = "1" then setAdd st p.1
            else st
          | none =>
            if p.2.flag dow = "1" then setAdd st p.1
            else st) =
        (if ¬(p.2.startDate ≤ today ∧ today ≤ p.2.endDate) then st
          else if p.2.flag dow = "1" then setAdd st p.1 else st) := rfl
    rw [hred]
    by_cases h1 : ¬(p.2.startDate ≤ today ∧ today ≤ p.2.endDate)
    · rw [if_pos h1, ih]
      simp only [List.exists_mem_cons_iff]
      constructor
      · rintro (h | h)
        · exact Or.inl h
        · exact Or.inr (Or.inr h)
      · rintro (h | (⟨_, hr, _⟩ | h))
        · exact Or.inl h
        · exact absurd hr h1
        · exact Or.inr h
    · rw [if_neg h1]
      have h1' := not_not.mp h1
      by_cases h2 : p.2.flag dow = "1"
      · rw [if_pos h2, ih, mem_setAdd]
        simp only [List.exists_mem_cons_iff]
        constructor
        · rintro ((h | h) | h)
          · exact Or.inl h
          · exact Or.inr (Or.inl ⟨h.symm, h1', h2⟩)
          · exact Or.inr (Or.inr h)
        · rintro (h | (⟨h, _, _⟩ | h))
          · exact Or.inl (Or.inl h)
          · exact Or.inl (Or.inr h.symm)
          · exact Or.inr h
      · rw [if_neg h2, ih]
        simp only [List.exists_mem_cons_iff]
        constructor
        · rintro (h | h)
          · exact Or.inl h
          · exact Or.inr (Or.inr h)
        · rintro (h | (⟨_, _, hf⟩ | h))
          · exact Or.inl h
          · exact absurd hf h2
          · exact Or.inr h

/-- Membership in the main loop of `loadServiceIdsForToday` (arbitrary
exceptions map) comes from the initial set or some entry key. -/
theorem load_foldl_mem (today : String) (dow : Weekday) (exs : List (String × String)) :
    ∀ (entries : List (String × P1.CalInfo)) (st : List String) (s : String),
      s ∈ entries.foldl (fun active p =>
        if ¬(p.2.startDate ≤ today ∧ today ≤ p.2.endDate) then active
        else
          match mapLookup exs p.1 with
          | some ex =>
            if ex = "2" then active
            else if ex = "1" then setAdd active p.1
            else if p.2.flag dow = "1" then setAdd active p.1
            else active
          | none =>
            if p.2.flag dow = "1" then setAdd active p.1
            else active) st →
      s ∈ st ∨ ∃ p ∈ entries, p.1 = s := by
  intro entries
  induction entries with
  | nil =>
    intro st s h
    exact Or.inl h
  | cons p rest ih =>
    intro st s h
    rw [List.foldl_cons] at h
    have hstep : ∀ st' : List String,
        s ∈ (if ¬(p.2.startDate ≤ today ∧ today ≤ p.2.endDate) then st'
          else
            match mapLookup exs p.1 with
            | some ex =>
              if ex = "2" then st'
              else if ex = "1" then setAdd st' p.1
              else if p.2.flag dow = "1" then setAdd st' p.1
              else st'
            | none =>
              if p.2.flag dow = "1" then setAdd st' p.1
              else st') → s ∈ st' ∨ s = p.1 := by
      intro st' hm
      by_cases h1 : ¬(p.2.startDate ≤ today ∧ today ≤ p.2.endDate)
      · rw [if_pos h1] at hm
        exact Or.inl hm
      · rw [if_neg h1] at hm
        cases hx : mapLookup exs p.1 with
        | none =>
          rw [hx] at hm
          revert hm
          show s ∈ (if p.2.flag dow = "1" then setAdd st' p.1 else st') → _
          split
          · rw [mem_setAdd]
            exact id
          · exact Or.inl
        | some ex =>
          rw [hx] at hm
          revert hm
          show s ∈ (if ex = "2" then st'
            else if ex = "1" then setAdd st' p.1
            else if p.2.flag dow = "1" then setAdd st' p.1 else st') → _
          split
          · exact Or.inl
          · split
            · rw [mem_setAdd]
              exact id
            · split
              · rw [mem_setAdd]
                exact id
              · exact Or.inl
    rcases ih _ s h with hmem | ⟨q, hq, he⟩
    · rcases hstep st hmem with hmem | he
      · exact Or.inl hmem
      · exact Or.inr ⟨p, List.mem_cons_self p rest, he.symm⟩
    · exact Or.inr ⟨q, List.mem_cons_of_mem p hq, he⟩

/-- The flag of a calendar-map record equals the flag of its row. -/
theorem calInfo_flag_eq (r : CalRow) (dow : Weekday) :
    (⟨r.start_date, r.end_date, r.monday, r.tuesday, r.wednesday, r.thursday,
      r.friday, r.saturday, r.sunday⟩ : P1.CalInfo).flag dow = r.flag dow := by
  cases dow <;> rfl

/-- Any element a live window pushes lies between the window's `next`
value and the window end, and the window is still live. -/
theorem windowCands_facts (now : Nat) (w : FreqWindow) (t : Nat)
    (ht : t ∈ P1.windowCands now w) :
    now ≤ w.endSec ∧ t ≤ w.endSec ∧ P1.wNext now w ≤ t := by
  by_cases hdead : w.endSec < now
  · rw [P1.windowCands_empty now w hdead] at ht
    cases ht
  · rw [P1.windowCands_eq now w (by omega)] at ht
    rw [List.mem_filter] at ht
    obtain ⟨hm, hle⟩ := ht
    have hle' : t ≤ w.endSec := by simpa using hle
    refine ⟨by omega, hle', ?_⟩
    have hm' : t = P1.wNext now w ∨ t = P1.wNext now w + w.headwaySec := by simpa using hm
    rcases hm' with rfl | rfl
    · exact Nat.le_refl _
    · exact Nat.le_add_right _ _

/-- The `next` value of a live window is itself pushed whenever it fits
the window end. -/
theorem wNext_mem_windowCands (now : Nat) (w : FreqWindow) (h1 : now ≤ w.endSec)
    (h2 : P1.wNext now w ≤ w.endSec) : P1.wNext now w ∈ P1.windowCands now w := by
  rw [P1.windowCands_eq now w h1, List.mem_filter]
  constructor
  · simp
  · simpa using h2

/-- The per-window next departure is a non-decreasing function of
`now`. -/
theorem wNext_mono (w : FreqWindow) (now₁ now₂ : Nat) (h : now₁ ≤ now₂) :
    P1.wNext now₁ w ≤ P1.wNext now₂ w := by
  unfold P1.wNext
  by_cases h1 : now₁ ≤ w.startSec
  · rw [if_pos h1]
    split
    · exact Nat.le_refl _
    · exact Nat.le_add_right _ _
  · rw [if_neg h1, if_neg (by omega)]
    apply Nat.add_le_add_left
    apply Nat.mul_le_mul_right
    apply Nat.div_le_div_right
    omega

/-- The exact-equality selection loop keeps its accumulator. -/
theorem uniqTwoGo_mem_acc :
    ∀ (l acc : List Nat) (x : Nat), x ∈ acc → x ∈ P1.uniqTwoGo acc l := by
  intro l
  induction l with
  | nil =>
    intro acc x hx
    rw [P1.uniqTwoGo.eq_1]
    exact hx
  | cons t rest ih =>
    intro acc x hx
    rw [P1.uniqTwoGo.eq_2]
    by_cases h1 : acc ≠ [] ∧ acc.getLastD 0 = t
    · rw [if_pos h1]
      exact ih acc x hx
    · rw [if_neg h1]
      by_cases h2 : 2 ≤ (acc ++ [t]).length
      · rw [if_pos h2]
        exact List.mem_append_left _ hx
      · rw [if_neg h2]
        exact ih _ x (List.mem_append_left _ hx)

/-- The first element of the sorted candidate list is always kept. -/
theorem uniqTwoGo_head_mem (a : Nat) (rest : List Nat) :
    a ∈ P1.uniqTwoGo [] (a :: rest) := by
  rw [P1.uniqTwoGo.eq_2]
  rw [if_neg (by simp)]
  by_cases h2 : 2 ≤ (([] : List Nat) ++ [a]).length
  · rw [if_pos h2]
    simp
  · rw [if_neg h2]
    exact uniqTwoGo_mem_acc rest _ a (by simp)

/-- The tolerance selection loop only returns accumulator entries and
input entries. -/
theorem uniqTolGo_subset :
    ∀ (l acc : List Nat) (x : Nat), x ∈ SrvA.uniqTolGo acc l → x ∈ acc ∨ x ∈ l := by
  intro l
  induction l with
  | nil =>
    intro acc x hx
    exact Or.inl hx
  | cons c rest ih =>
    intro acc x hx
    rw [SrvA.uniqTolGo.eq_2] at hx
    by_cases h2 : 2 ≤ acc.length
    · rw [if_pos h2] at hx
      exact Or.inl hx
    · rw [if_neg h2] at hx
      rcases ih _ x hx with hm | hm
      · by_cases hc : acc.length = 0 ∨
          10 < max c (acc.getLastD 0) - min c (acc.getLastD 0)
        · rw [if_pos hc] at hm
          rcases List.mem_append.mp hm with h | h
          · exact Or.inl h
          · right
            simp at h
            simp [h]
        · rw [if_neg hc] at hm
          exact Or.inl hm
      · exact Or.inr (List.mem_cons_of_mem c hm)

/-- The binary-search loop preserves the invariant that `idx` is either
the list length or an index whose departure is at least `now`. -/
theorem bsearchFuel_inv (l : List Nat) (now : Nat) :
    ∀ (fuel lo : Nat) (hi : Int) (idx : Nat),
      (idx = l.length ∨ now ≤ l.getD idx 0) →
      (SrvA.bsearchFuel l now fuel lo hi idx = l.length ∨
        now ≤ l.getD (SrvA.bsearchFuel l now fuel lo hi idx) 0) := by
  intro fuel
  induction fuel with
  | zero =>
    intro lo hi idx h
    exact h
  | succ n ih =>
    intro lo hi idx h
    rw [SrvA.bsearchFuel.eq_2]
    by_cases hcmp : (lo : Int) ≤ hi
    · rw [if_pos hcmp]
      by_cases hnow : now ≤ l.getD ((lo + hi.toNat) / 2) 0
      · rw [if_pos hnow]
        exact ih _ _ _ (Or.inr hnow)
      · rw [if_neg hnow]
        exact ih _ _ _ h
    · rw [if_neg hcmp]
      exact h

/-- In an ascending list, everything from position `idx` on is at least
the element at `idx`. -/
theorem sorted_drop_ge :
    ∀ (l : List Nat), l.Sorted (· ≤ ·) → ∀ (idx : Nat), idx < l.length →
      ∀ c ∈ l.drop idx, l.getD idx 0 ≤ c := by
  intro l
  induction l with
  | nil =>
    intro _ idx h
    simp at h
  | cons a tl ih =>
    intro hs idx hidx c hc
    cases idx with
    | zero =>
      rw [List.drop_zero] at hc
      rcases List.mem_cons.mp hc with rfl | hm
      · exact Nat.le_refl _
      · exact List.rel_of_sorted_cons hs c hm
    | succ n =>
      rw [List.drop_succ_cons] at hc
      exact ih hs.of_cons n (by simpa using hidx) c hc

/-- Every candidate a sorted per-service departure list contributes is
at least `now`. -/
theorem serviceCands_ge (now : Nat) (l : List Nat) (hs : l.Sorted (· ≤ ·)) :
    ∀ c ∈ SrvA.serviceCands now l, now ≤ c := by
  intro c hc
  have hinv : SrvA.bsearchGo l now 0 ((l.length : Int) - 1) l.length = l.length ∨
      now ≤ l.getD (SrvA.bsearchGo l now 0 ((l.length : Int) - 1) l.length) 0 :=
    bsearchFuel_inv l now _ 0 _ l.length (Or.inl rfl)
  have hc' : c ∈ l.drop (SrvA.bsearchGo l now 0 ((l.length : Int) - 1) l.length) :=
    List.mem_of_mem_take hc
  rcases hinv with hlen | hge
  · rw [hlen, List.drop_length] at hc'
    cases hc'
  · by_cases hix : SrvA.bsearchGo l now 0 ((l.length : Int) - 1) l.length < l.length
    · have := sorted_drop_ge l hs _ hix c hc'
      omega
    · rw [List.drop_eq_nil_of_le (by omega)] at hc'
      cases hc'

/-- A successful JS-`Map.get` returns the value of some entry. -/
theorem mapLookup_mem {α : Type} (m : List (String × α)) (k : String) (v : α)
    (h : mapLookup m k = some v) : ∃ p ∈ m, p.2 = v := by
  unfold mapLookup at h
  cases hf : List.find? (fun p => p.1 == k) m with
  | none =>
    rw [hf] at h
    cases h
  | some p =>
    rw [hf] at h
    refine ⟨p, List.mem_of_find?_eq_some hf, ?_⟩
    simpa using h

/-- Every candidate the stop-time variant collects from sorted
departure lists is at least `now`. -/
theorem candidatesA_ge (now : Nat) (deps : List (String × List Nat))
    (hsorted : ∀ p ∈ deps, p.2.Sorted (· ≤ ·)) :
    ∀ (active : List String) (acc : List Nat), (∀ x ∈ acc, now ≤ x) →
      ∀ c ∈ active.foldl (fun acc sid =>
        match mapLookup deps sid with
        | none => acc
        | some l => if l.length = 0 then acc else acc ++ SrvA.serviceCands now l) acc,
      now ≤ c := by
  intro active
  induction active with
  | nil =>
    intro acc hacc c hc
    exact hacc c hc
  | cons sid active ih =>
    intro acc hacc c hc
    rw [List.foldl_cons] at hc
    refine ih _ ?_ c hc
    intro x hx
    revert hx
    cases hm : mapLookup deps sid with
    | none =>
      exact fun hx => hacc x hx
    | some l =>
      show x ∈ (if l.length = 0 then acc else acc ++ SrvA.serviceCands now l) → now ≤ x
      intro hx
      by_cases hz : l.length = 0
      · rw [if_pos hz] at hx
        exact hacc x hx
      · rw [if_neg hz] at hx
        rcases List.mem_append.mp hx with h | h
        · exact hacc x h
        · obtain ⟨p, hp, hpv⟩ := mapLookup_mem deps sid l hm
          exact serviceCands_ge now l (hpv ▸ hsorted p hp) x h

/-- Every reported departure of `nextTwoFromFrequencies` comes from
some window's candidate push. -/
theorem mem_nextTwoFF (now : Nat) (ws : List FreqWindow) (t : Nat)
    (ht : t ∈ P1.nextTwoFromFrequencies now ws) :
    ∃ w ∈ ws, t ∈ P1.windowCands now w := by
  obtain ⟨l', he, hsub⟩ := uniqTwoGo_append_sublist
    ((ws.foldl (fun acc w => acc ++ P1.windowCands now w) []).insertionSort (· ≤ ·)) []
  have ht0 : t ∈ P1.uniqTwoGo []
      ((ws.foldl (fun acc w => acc ++ P1.windowCands now w) []).insertionSort (· ≤ ·)) := ht
  rw [he, List.nil_append] at ht0
  have hts : t ∈ (ws.foldl (fun acc w => acc ++ P1.windowCands now w) []).insertionSort
      (· ≤ ·) := hsub.subset ht0
  have htc : t ∈ ws.foldl (fun acc w => acc ++ P1.windowCands now w) [] :=
    ((List.perm_insertionSort _ _).mem_iff).mp hts
  rcases (mem_foldl_append (P1.windowCands now) ws [] t).mp htc with h | h
  · cases h
  · exact h

/-- With an empty departure index the stop-time candidate collection is
empty. -/
theorem candidatesA_nil (now : Nat) : ∀ active : List String,
    SrvA.candidatesA now active [] = [] := by
  intro active
  induction active with
  | nil => rfl
  | cons sid rest ih => exact ih

/-- A sorted-departure list all of whose entries lie before `now`
contributes no candidate. -/
theorem serviceCands_past (now : Nat) (l : List Nat)
    (hall : ∀ t ∈ l, t < now) : SrvA.serviceCands now l = [] := by
  cases l with
  | nil => rfl
  | cons a tl =>
    have hinv : SrvA.bsearchGo (a :: tl) now 0 (((a :: tl).length : Int) - 1)
          (a :: tl).length = (a :: tl).length ∨
        now ≤ (a :: tl).getD (SrvA.bsearchGo (a :: tl) now 0
          (((a :: tl).length : Int) - 1) (a :: tl).length) 0 :=
      bsearchFuel_inv (a :: tl) now _ 0 _ (a :: tl).length (Or.inl rfl)
    have hidx : (a :: tl).length ≤ SrvA.bsearchGo (a :: tl) now 0
        (((a :: tl).length : Int) - 1) (a :: tl).length := by
      rcases hinv with h | h
      · omega
      · by_cases hlt : SrvA.bsearchGo (a :: tl) now 0 (((a :: tl).length : Int) - 1)
            (a :: tl).length < (a :: tl).length
        · rw [List.getD_eq_getElem (a :: tl) 0 hlt] at h
          have := hall _ (List.getElem_mem hlt)
          omega
        · omega
    show ((a :: tl).drop (SrvA.bsearchGo (a :: tl) now 0
      (((a :: tl).length : Int) - 1) (a :: tl).length)).take 6 = []
    rw [List.drop_eq_nil_of_le hidx]
    rfl

/-- With every departure in the index before `now`, the stop-time
candidate collection is empty. -/
theorem candidatesA_past (now : Nat) (deps : List (String × List Nat))
    (hall : ∀ p ∈ deps, ∀ t ∈ p.2, t < now) :
    ∀ active : List String, SrvA.candidatesA now active deps = [] := by
  intro active
  induction active with
  | nil => rfl
  | cons sid rest ih =>
    show rest.foldl (fun acc sid =>
      match mapLookup deps sid with
      | none => acc
      | some l => if l.length = 0 then acc else acc ++ SrvA.serviceCands now l)
      (match mapLookup deps sid with
        | none => ([] : List Nat)
        | some l => if l.length = 0 then [] else [] ++ SrvA.serviceCands now l) = []
    cases hm : mapLookup deps sid with
    | none => exact ih
    | some l =>
      show rest.foldl (fun acc sid =>
        match mapLookup deps sid with
        | none => acc
        | some l => if l.length = 0 then acc else acc ++ SrvA.serviceCands now l)
        (if l.length = 0 then [] else [] ++ SrvA.serviceCands now l) = []
      by_cases hz : l.length = 0
      · rw [if_pos hz]
        exact ih
      · rw [if_neg hz]
        obtain ⟨p, hp, hpv⟩ := mapLookup_mem deps sid l hm
        rw [serviceCands_past now l (fun t ht => hall p hp t (hpv ▸ ht))]
        exact ih

/-- A rounded-minutes label never equals the arriving-now sentinel
(their last characters differ). -/
theorem minLabel_ne_arrive (m : Nat) : toString m ++ " min" ≠ "Arrive" := by
  intro h
  have hd : (toString m).data ++ (" min").data = ("Arrive").data := by
    rw [← String.data_append, h]
  have hrev := congrArg List.reverse hd
  rw [List.reverse_append] at hrev
  simp at hrev

/-! ### Claim theorems -/

/-- C1 counterexample: one Added and one Removed exception for the same
(service, date), with the Removed record FIRST and the Added record
second: `activeServiceIdsForToday` ends with the service INCLUDED, so
the resolver does not exclude it for every input ordering. -/
theorem C1_counterexample :
    "S1" ∈ SrvA.activeServiceIdsForToday "20240101" .monday []
      [⟨"S1", "20240101", "2"⟩, ⟨"S1", "20240101", "1"⟩] := by decide

/-- C1 (amended): `isServiceActive` (headway variant) excludes the
service whenever a Removed exception exists for the (service, date),
regardless of record order — in particular when both an Added and a
Removed exception exist; `activeServiceIdsForToday` and
`loadServiceIdsForToday` apply exceptions in input order, so they
exclude the service exactly in the orderings where the Removed record is
the last matching exception (in particular Added-then-Removed); with
the Added record last the service stays included there. -/
theorem C1_exception_precedence :
    (∀ (sid dateStr : String) (dow : Weekday) (cal : List CalRow)
        (cds : List CalDateRow),
      (∃ r ∈ cds, r.service_id = sid ∧ r.date = dateStr ∧ r.exception_type = "2") →
      P0.isServiceActive sid dateStr dow cal cds = false) ∧
    (∀ (today s : String) (wk : Weekday) (cal : List CalRow)
        (l₁ l₂ : List CalDateRow) (r : CalDateRow),
      r.service_id = s → r.date = today → r.exception_type = "2" →
      (∀ x ∈ l₂, ¬(x.service_id = s ∧ x.date = today)) →
      s ∉ SrvA.activeServiceIdsForToday today wk cal (l₁ ++ r :: l₂)) ∧
    (∀ (today s : String) (dow : Weekday) (cal : List CalRow)
        (l₁ l₂ : List CalDateRow) (r : CalDateRow),
      r.service_id = s → r.date = today → r.exception_type = "2" →
      (∀ x ∈ l₂, ¬(x.service_id = s ∧ x.date = today)) →
      s ∉ P1.loadServiceIdsForToday today dow cal (l₁ ++ r :: l₂)) := by
  refine ⟨?_, ?_, ?_⟩
  · rintro sid dateStr dow cal cds ⟨r, hrm, h1, h2, h3⟩
    unfold P0.isServiceActive
    have hany : ((cds.filter (fun r => r.service_id == sid && r.date == dateStr)).any
        (fun r => r.exception_type == "2")) = true := by
      rw [List.any_eq_true]
      exact ⟨r, List.mem_filter.mpr ⟨hrm, by simp [h1, h2]⟩, by simp [h3]⟩
    rw [if_pos hany]
  · intro today s wk cal l₁ l₂ r hr1 hr2 hr3 hl₂
    unfold SrvA.activeServiceIdsForToday
    rw [List.foldl_append, List.foldl_cons]
    apply exc_foldl_not_mem today s l₂ _ ?_ hl₂
    rw [if_neg (by rw [hr2]; exact not_not_intro rfl)]
    rw [if_neg (by rw [hr3]; decide), if_pos hr3]
    rw [mem_setDel, hr1]
    rintro ⟨_, h⟩
    exact h rfl
  · intro today s dow cal l₁ l₂ r hr1 hr2 hr3 hl₂
    have hlook : mapLookup (P1.exceptionsMap today (l₁ ++ r :: l₂)) s = some "2" := by
      rw [exceptionsMap_last today s l₁ l₂ r hr1 hr2 hl₂, hr3]
    unfold P1.loadServiceIdsForToday
    exact load_foldl_not_mem today dow _ s hlook (P1.calendarMap cal) []
      (List.not_mem_nil s)

/-- C6 counterexample: in the stop-time variant a snapshot in which NO
trip matches the route selector (trip on route r99, selector "4") and a
snapshot in which a matching trip exists, its service is active (via an
Added exception for today), and `now` lies past its only departure
produce the very same public response — the out-of-service
text — so the "insufficient data" outcome is not a distinct value
there; and in the headway variant an unresolvable route makes
`getCurrentHeadwaySeconds` THROW (an `Except.error`), rather than
return an insufficient-data value. -/
theorem C6_counterexample :
    SrvA.nextHandlerA 80000 "20240103" .wednesday [] [⟨"S1", "20240103", "1"⟩]
      (SrvA.departuresByService [⟨"t1", "STATION_M454", "06:00:00", ""⟩] "STATION_M454"
        (SrvA.tripsById [⟨"t1", "r99", "S1"⟩] (SrvA.wantedRouteIds [⟨"r4", "4"⟩] "4"))) =
      "Hors période de service\n—" ∧
    SrvA.nextHandlerA 80000 "20240103" .wednesday [] [⟨"S1", "20240103", "1"⟩]
      (SrvA.departuresByService [⟨"t1", "STATION_M454", "06:00:00", ""⟩] "STATION_M454"
        (SrvA.tripsById [⟨"t1", "r4", "S1"⟩] (SrvA.wantedRouteIds [⟨"r4", "4"⟩] "4"))) =
      "Hors période de service\n—" ∧
    P0.getCurrentHeadwaySeconds [⟨"t1", "99", "S1", "Vers Berri-UQAM"⟩] [] [] []
      "20240101" .monday 0 = .error "Trip métro ligne 4 introuvable dans le GTFS." := by
  refine ⟨by decide, by decide, rfl⟩

/-- C6 (amended): in the stop-time variant both an empty departure
index (unresolvable route) and an index whose departures all lie before
`now` produce the same "Hors période de service" response, so the two
outcomes are not distinguishable values at the public interface; in the
headway variant an unresolvable route throws (`Except.error`, which the
handler renders as the error response), while a covered trip without a
matching frequency window returns `null`, which
`computeNextTwoFromHeadway` renders as the unavailable-data pair. -/
theorem C6_outcomes :
    (∀ (now : Nat) (today : String) (wk : Weekday) (cal : List CalRow)
        (cds : List CalDateRow),
      SrvA.nextHandlerA now today wk cal cds [] = "Hors période de service\n—") ∧
    (∀ (now : Nat) (today : String) (wk : Weekday) (cal : List CalRow)
        (cds : List CalDateRow) (deps : List (String × List Nat)),
      (∀ p ∈ deps, ∀ t ∈ p.2, t < now) →
      SrvA.nextHandlerA now today wk cal cds deps = "Hors période de service\n—") ∧
    (∀ (trips : List P0.Trip0) (freqs : List P0.Freq0) (cal : List CalRow)
        (cds : List CalDateRow) (dateStr : String) (dow : Weekday) (tSec : Nat),
      P0.pickMetroTripForRoute trips = none →
      ∃ msg, P0.getCurrentHeadwaySeconds trips freqs cal cds dateStr dow tSec =
        .error msg) ∧
    (∀ unixNow : Nat,
      P0.computeNextTwoFromHeadway none unixNow = ["Données indisponibles", "—"]) := by
  refine ⟨?_, ?_, ?_, fun unixNow => rfl⟩
  · intro now today wk cal cds
    unfold SrvA.nextHandlerA
    have h : SrvA.nextTwoDepartures now
        (SrvA.activeServiceIdsForToday today wk cal cds) [] = none := by
      simp only [SrvA.nextTwoDepartures, candidatesA_nil]
      rfl
    rw [h]
  · intro now today wk cal cds deps hall
    unfold SrvA.nextHandlerA
    have h : SrvA.nextTwoDepartures now
        (SrvA.activeServiceIdsForToday today wk cal cds) deps = none := by
      simp only [SrvA.nextTwoDepartures, candidatesA_past now deps hall]
      rfl
    rw [h]
  · intro trips freqs cal cds dateStr dow tSec hpick
    refine ⟨"Trip métro ligne 4 introuvable dans le GTFS.", ?_⟩
    unfold P0.getCurrentHeadwaySeconds
    rw [hpick]

/-- Witness for C6's past-all-departures case at a concrete index. -/
theorem C6_outcomes_witness :
    SrvA.nextHandlerA 80000 "20240103" .wednesday [] [] [("S1", [21600])] =
      "Hors période de service\n—" :=
  C6_outcomes.2.1 80000 "20240103" .wednesday [] [] [("S1", [21600])] (by decide)

/-- C3: in the frequency variant every reported departure is at least
`now` (the loaded windows carry positive headways by construction); the
per-window next-candidate function is non-decreasing in `now`, and for
any departure reported at a later instant the earlier instant reports
one at most as large; in the stop-time variant every collected
candidate is at least `now`, so the reported deltas are exactly
candidate − now — never negative and zero exactly when a candidate
equals `now`. -/
theorem C3_monotonicity_and_deltas :
    (∀ (now : Nat) (ws : List FreqWindow), (∀ w ∈ ws, 0 < w.headwaySec) →
      ∀ t ∈ P1.nextTwoFromFrequencies now ws, now ≤ t) ∧
    (∀ (w : FreqWindow) (now₁ now₂ : Nat), now₁ ≤ now₂ →
      P1.wNext now₁ w ≤ P1.wNext now₂ w) ∧
    (∀ (ws : List FreqWindow) (now₁ now₂ : Nat), now₁ ≤ now₂ →
      ∀ t₂ ∈ P1.nextTwoFromFrequencies now₂ ws,
        ∃ t₁ ∈ P1.nextTwoFromFrequencies now₁ ws, t₁ ≤ t₂) ∧
    (∀ (now : Nat) (active : List String) (deps : List (String × List Nat))
        (ds : List Int),
      (∀ p ∈ deps, p.2.Sorted (· ≤ ·)) →
      SrvA.nextTwoDepartures now active deps = some ds →
      ∃ cs : List Nat, (∀ c ∈ cs, now ≤ c) ∧
        ds = cs.map (fun (c : Nat) => (c : Int) - (now : Int)) ∧ ∀ d ∈ ds, 0 ≤ d) := by
  refine ⟨?_, fun w now₁ now₂ h => wNext_mono w now₁ now₂ h, ?_, ?_⟩
  · intro now ws hpos t ht
    obtain ⟨w, hw, htw⟩ := mem_nextTwoFF now ws t ht
    obtain ⟨_, _, hwn⟩ := windowCands_facts now w t htw
    have := P1.now_le_wNext now w (hpos w hw)
    omega
  · intro ws now₁ now₂ h12 t₂ ht₂
    obtain ⟨w, hw, htw⟩ := mem_nextTwoFF now₂ ws t₂ ht₂
    obtain ⟨hend2, hte, hwn2⟩ := windowCands_facts now₂ w t₂ htw
    have hmono := wNext_mono w now₁ now₂ h12
    have hc1 : P1.wNext now₁ w ∈ P1.windowCands now₁ w :=
      wNext_mem_windowCands now₁ w (by omega) (by omega)
    have hc1c : P1.wNext now₁ w ∈ ws.foldl
        (fun acc w => acc ++ P1.windowCands now₁ w) [] :=
      (mem_foldl_append (P1.windowCands now₁) ws [] _).mpr (Or.inr ⟨w, hw, hc1⟩)
    have hmemS : P1.wNext now₁ w ∈
        (ws.foldl (fun acc w => acc ++ P1.windowCands now₁ w) []).insertionSort (· ≤ ·) :=
      ((List.perm_insertionSort _ _).mem_iff).mpr hc1c
    cases hsrt : (ws.foldl (fun acc w => acc ++ P1.windowCands now₁ w)
        []).insertionSort (· ≤ ·) with
    | nil =>
      rw [hsrt] at hmemS
      cases hmemS
    | cons a rest =>
      have hsorted := List.sorted_insertionSort (· ≤ ·)
        (ws.foldl (fun acc w => acc ++ P1.windowCands now₁ w) [])
      rw [hsrt] at hsorted hmemS
      have hha : a ≤ P1.wNext now₁ w := by
        rcases List.mem_cons.mp hmemS with heq | hm
        · omega
        · exact List.rel_of_sorted_cons hsorted _ hm
      refine ⟨a, ?_, by omega⟩
      show a ∈ P1.uniqTwoGo []
        ((ws.foldl (fun acc w => acc ++ P1.windowCands now₁ w) []).insertionSort (· ≤ ·))
      rw [hsrt]
      exact uniqTwoGo_head_mem a rest
  · intro now active deps ds hsorted hds
    have hds' : (if SrvA.uniqTolGo []
          ((SrvA.candidatesA now active deps).insertionSort (· ≤ ·)) = [] then none
        else some ((SrvA.uniqTolGo []
          ((SrvA.candidatesA now active deps).insertionSort (· ≤ ·))).map
            (fun (depSec : Nat) => max 0 ((depSec : Int) - (now : Int))))) = some ds := hds
    by_cases hu : SrvA.uniqTolGo []
        ((SrvA.candidatesA now active deps).insertionSort (· ≤ ·)) = []
    · rw [if_pos hu] at hds'
      cases hds'
    · rw [if_neg hu] at hds'
      have hdse : ds = (SrvA.uniqTolGo []
          ((SrvA.candidatesA now active deps).insertionSort (· ≤ ·))).map
            (fun (depSec : Nat) => max 0 ((depSec : Int) - (now : Int))) := by
        injection hds' with h
        exact h.symm
      have hge : ∀ c ∈ SrvA.uniqTolGo []
          ((SrvA.candidatesA now active deps).insertionSort (· ≤ ·)), now ≤ c := by
        intro c hc
        rcases uniqTolGo_subset _ [] c hc with h | h
        · cases h
        · have hcc : c ∈ SrvA.candidatesA now active deps :=
            ((List.perm_insertionSort _ _).mem_iff).mp h
          exact candidatesA_ge now deps hsorted active []
            (by intro x hx; cases hx) c hcc
      refine ⟨SrvA.uniqTolGo []
          ((SrvA.candidatesA now active deps).insertionSort (· ≤ ·)), hge, ?_, ?_⟩
      · rw [hdse]
        refine List.map_congr_left ?_
        intro c hc
        have hnc := hge c hc
        omega
      · intro d hd
        rw [hdse] at hd
        rw [List.mem_map] at hd
        obtain ⟨c, hc, rfl⟩ := hd
        exact le_max_left 0 _

/-- Witness for C3's monotone reporting at a single window. -/
theorem C3_monotonicity_and_deltas_witness :
    ∃ t₁ ∈ P1.nextTwoFromFrequencies 100 [⟨0, 1000, 100⟩], t₁ ≤ 300 :=
  C3_monotonicity_and_deltas.2.2.1 [⟨0, 1000, 100⟩] 100 300 (by decide) 300 (by decide)

/-- C8: the service-day resolvers return a subset of the declared
service identifiers (calendar rows, plus exception records for
`activeServiceIdsForToday`, which can add exception-only services);
with no exception dated `today` the result is exactly the rule-only
set — services whose date range contains `today` (by the code's string
comparison) with the weekday flag `"1"` (for `loadServiceIdsForToday`
under the data-model invariant of at most one rule per service); and on
empty inputs the result is the empty set, not an error. -/
theorem C8_active_service_resolution (today : String) (wk : Weekday)
    (cal : List CalRow) (cds : List CalDateRow) :
    (∀ s ∈ SrvA.activeServiceIdsForToday today wk cal cds,
      (∃ c ∈ cal, c.service_id = s) ∨ (∃ x ∈ cds, x.service_id = s)) ∧
    ((∀ x ∈ cds, x.date ≠ today) → ∀ s : String,
      s ∈ SrvA.activeServiceIdsForToday today wk cal cds ↔
        ∃ c ∈ cal, c.service_id = s ∧
          ¬(today < c.start_date ∨ c.end_date < today) ∧ c.flag wk = "1") ∧
    SrvA.activeServiceIdsForToday today wk [] [] = [] ∧
    (∀ s ∈ P1.loadServiceIdsForToday today wk cal cds, ∃ c ∈ cal, c.service_id = s) ∧
    ((∀ x ∈ cds, x.date ≠ today) → (cal.map (·.service_id)).Nodup → ∀ s : String,
      s ∈ P1.loadServiceIdsForToday today wk cal cds ↔
        ∃ c ∈ cal, c.service_id = s ∧
          (c.start_date ≤ today ∧ today ≤ c.end_date) ∧ c.flag wk = "1") ∧
    P1.loadServiceIdsForToday today wk [] [] = [] := by
  refine ⟨?_, ?_, rfl, ?_, ?_, rfl⟩
  · intro s hs
    rcases exc_foldl_mem today cds _ s hs with hb | hx
    · rcases (mem_base_fold today wk cal [] s).mp hb with h | ⟨c, hc, hcs, _⟩
      · cases h
      · exact Or.inl ⟨c, hc, hcs⟩
    · exact Or.inr hx
  · intro hno s
    have hid : SrvA.activeServiceIdsForToday today wk cal cds =
        cal.foldl (fun acc c =>
          if today < c.start_date ∨ c.end_date < today then acc
          else if c.flag wk ≠ "1" then acc
          else setAdd acc c.service_id) [] := by
      unfold SrvA.activeServiceIdsForToday
      exact exc_foldl_id today cds _ hno
    rw [hid, mem_base_fold today wk cal [] s]
    simp
  · intro s hs
    rcases load_foldl_mem today wk _ (P1.calendarMap cal) [] s hs with h | ⟨p, hp, he⟩
    · cases h
    · rcases calendarMap_keys cal [] p hp with h | ⟨r, hr, hqr⟩
      · cases h
      · exact ⟨r, hr, hqr.symm.trans he⟩
  · intro hno hnd s
    have hexc : P1.exceptionsMap today cds = [] := exceptionsMap_of_none today cds hno
    have h1 : P1.loadServiceIdsForToday today wk cal cds =
        (P1.calendarMap cal).foldl (fun active p =>
          if ¬(p.2.startDate ≤ today ∧ today ≤ p.2.endDate) then active
          else
            match mapLookup ([] : List (String × String)) p.1 with
            | some ex =>
              if ex = "2" then active
              else if ex = "1" then setAdd active p.1
              else if p.2.flag wk = "1" then setAdd active p.1
              else active
            | none =>
              if p.2.flag wk = "1" then setAdd active p.1
              else active) [] := by
      unfold P1.loadServiceIdsForToday
      rw [hexc]
    have hmap : P1.calendarMap cal = cal.map (fun r =>
        (r.service_id,
          (⟨r.start_date, r.end_date, r.monday, r.tuesday, r.wednesday,
            r.thursday, r.friday, r.saturday, r.sunday⟩ : P1.CalInfo))) := by
      have h := calendarMap_of_nodup cal [] hnd (by intro r _ q hq; cases hq)
      rw [List.nil_append] at h
      exact h
    rw [h1, hmap, load_foldl_mem_iff_no_exc today wk _ [] s]
    constructor
    · rintro (h | ⟨p, hp, he, hr, hf⟩)
      · cases h
      · rw [List.mem_map] at hp
        obtain ⟨c, hc, rfl⟩ := hp
        refine ⟨c, hc, he, hr, ?_⟩
        rw [← calInfo_flag_eq c wk]
        exact hf
    · rintro ⟨c, hc, he, hr, hf⟩
      refine Or.inr ⟨_, List.mem_map_of_mem _ hc, he, hr, ?_⟩
      rw [calInfo_flag_eq c wk]
      exact hf

/-- Witness for C8's rule-only equality at a concrete weekday rule. -/
theorem C8_active_service_resolution_witness :
    "WD" ∈ SrvA.activeServiceIdsForToday "20240103" .wednesday
      [⟨"WD", "20240101", "20241231", "1", "1", "1", "1", "1", "0", "0"⟩] [] ↔
      ∃ c ∈ [(⟨"WD", "20240101", "20241231", "1", "1", "1", "1", "1", "0", "0"⟩ : CalRow)],
        c.service_id = "WD" ∧
          ¬("20240103" < c.start_date ∨ c.end_date < "20240103") ∧
          c.flag .wednesday = "1" :=
  (C8_active_service_resolution "20240103" .wednesday
    [⟨"WD", "20240101", "20241231", "1", "1", "1", "1", "1", "0", "0"⟩] []).2.1
    (by simp) "WD"

/-- Witness for C1 at a concrete Added-then-Removed pair. -/
theorem C1_exception_precedence_witness :
    P0.isServiceActive "S1" "20240101" .monday []
      [⟨"S1", "20240101", "1"⟩, ⟨"S1", "20240101", "2"⟩] = false ∧
    "S1" ∉ SrvA.activeServiceIdsForToday "20240101" .monday []
      ([⟨"S1", "20240101", "1"⟩] ++ ⟨"S1", "20240101", "2"⟩ :: []) ∧
    "S1" ∉ P1.loadServiceIdsForToday "20240101" .monday []
      ([⟨"S1", "20240101", "1"⟩] ++ ⟨"S1", "20240101", "2"⟩ :: []) :=
  ⟨C1_exception_precedence.1 "S1" "20240101" .monday []
      [⟨"S1", "20240101", "1"⟩, ⟨"S1", "20240101", "2"⟩]
      ⟨⟨"S1", "20240101", "2"⟩, by decide, rfl, rfl, rfl⟩,
   C1_exception_precedence.2.1 "20240101" "S1" .monday []
      [⟨"S1", "20240101", "1"⟩] [] ⟨"S1", "20240101", "2"⟩ rfl rfl rfl (by simp),
   C1_exception_precedence.2.2 "20240101" "S1" .monday []
      [⟨"S1", "20240101", "1"⟩] [] ⟨"S1", "20240101", "2"⟩ rfl rfl rfl (by simp)⟩

/-- C7: for the single frequency window (start 85800, end 90600,
headway 600) queried at now = 86100, both frequency-variant candidate
computations return exactly [86400, 87000]; no candidate falls below
85800, and the times at and past 86400 are produced and ordered as-is
(no modulo-86400 normalisation). -/
theorem C7_midnight_rollover :
    P1.nextTwoFromFrequencies 86100 [⟨85800, 90600, 600⟩] = [86400, 87000] ∧
    SrvB.computeNextTwoDepartures 86100 [⟨85800, 90600, 600⟩] = [86400, 87000] ∧
    ∀ t ∈ P1.nextTwoFromFrequencies 86100 [⟨85800, 90600, 600⟩], 85800 ≤ t := by
  refine ⟨by decide, by decide, by decide⟩

/-- C2: for every window with positive headway and start <= end and
every now: when now <= start the window's first candidate is start (in
both frequency variants); when start < now <= end the next candidate is
start plus the least headway multiple reaching now (the ceil formula:
at least now, less than now + headway, a multiple of the headway above
start), followed by one more headway step, each kept only while <= end;
when now > end the window contributes nothing. -/
theorem C2_window_candidate_cases (w : FreqWindow) (now : Nat)
    (hhead : 0 < w.headwaySec) (hse : w.startSec ≤ w.endSec) :
    (now ≤ w.startSec →
      (P1.windowCands now w).head? = some w.startSec ∧
      SrvB.computeNextTwoDepartures now [w] =
        [w.startSec, w.startSec + w.headwaySec].filter (fun t => t ≤ w.endSec)) ∧
    (w.startSec < now → now ≤ w.endSec →
      now ≤ P1.wNext now w ∧ P1.wNext now w < now + w.headwaySec ∧
      w.headwaySec ∣ (P1.wNext now w - w.startSec) ∧
      P1.windowCands now w =
        [P1.wNext now w, P1.wNext now w + w.headwaySec].filter (fun t => t ≤ w.endSec) ∧
      SrvB.computeNextTwoDepartures now [w] =
        [P1.wNext now w, P1.wNext now w + w.headwaySec].filter (fun t => t ≤ w.endSec)) ∧
    (w.endSec < now →
      P1.windowCands now w = [] ∧ SrvB.computeNextTwoDepartures now [w] = []) := by
  refine ⟨?_, ?_, ?_⟩
  · intro hbef
    have hwn : P1.wNext now w = w.startSec := by unfold P1.wNext; rw [if_pos hbef]
    constructor
    · rw [P1.windowCands_eq now w (by omega), hwn]
      simp [List.filter, hse]
    · rw [SrvB.single_window w now hse, if_neg (by omega), hwn]
  · intro hgt hle
    obtain ⟨ha, hb, hc⟩ := P1.wNext_spec now w hhead hgt
    refine ⟨ha, hb, hc, P1.windowCands_eq now w hle, ?_⟩
    rw [SrvB.single_window w now hse, if_neg (by omega)]
  · intro hdead
    exact ⟨P1.windowCands_empty now w hdead, by
      rw [SrvB.single_window w now hse, if_pos hdead]⟩

/-- Witness for C2 at the concrete midnight-rollover window. -/
theorem C2_window_candidate_cases_witness :
    P1.windowCands 86100 ⟨85800, 90600, 600⟩ =
      [P1.wNext 86100 ⟨85800, 90600, 600⟩,
       P1.wNext 86100 ⟨85800, 90600, 600⟩ + 600].filter (fun t => t ≤ 90600) :=
  ((C2_window_candidate_cases ⟨85800, 90600, 600⟩ 86100 (by decide) (by decide)).2.1
    (by decide) (by decide)).2.2.2.1

/-- C4 counterexample: at delta = 60 seconds the claim demands the label
"1 min", but `formatNext` and `formatAsArriveOrMinutes` return the
arriving-now sentinel (they test `delta <= 60`, not `< 60`). -/
theorem C4_counterexample :
    P1.formatNext 60 = "Arrive" ∧
    SrvB.formatAsArriveOrMinutes 1060 1000 = "Arrive" ∧
    "Arrive" ≠ "1 min" := ⟨rfl, rfl, by decide⟩

/-- C4 (amended): `formatDeltaToLabel` returns the sentinel exactly when
delta < 60 and otherwise the nearest whole minute with ties rounded up
(60 -> "1 min", 90 -> "2 min"); `formatNext` and
`formatAsArriveOrMinutes` (which agree pointwise) return the sentinel
exactly when delta <= 60, with the same rounding above that (so 60 ->
"Arrive" and 90 -> "2 min" there). -/
theorem C4_label_rules (d : Int) :
    (SrvA.formatDeltaToLabel d = "Arrive" ↔ d < 60) ∧
    (60 ≤ d → ∃ m : Nat, SrvA.formatDeltaToLabel d = toString m ++ " min" ∧
      60 * (m : Int) - 30 ≤ d ∧ d < 60 * m + 30) ∧
    (P1.formatNext d = "Arrive" ↔ d ≤ 60) ∧
    (60 < d → ∃ m : Nat, P1.formatNext d = toString m ++ " min" ∧
      60 * (m : Int) - 30 ≤ d ∧ d < 60 * m + 30) ∧
    (∀ dep now : Nat,
      SrvB.formatAsArriveOrMinutes dep now = P1.formatNext ((dep : Int) - now)) ∧
    SrvA.formatDeltaToLabel 60 = "1 min" ∧ SrvA.formatDeltaToLabel 90 = "2 min" ∧
    P1.formatNext 60 = "Arrive" ∧ P1.formatNext 90 = "2 min" := by
  refine ⟨?_, ?_, ?_, ?_, fun dep now => rfl, by decide, by decide, rfl, by decide⟩
  · constructor
    · intro h
      by_contra hno
      simp only [SrvA.formatDeltaToLabel, if_neg hno] at h
      exact minLabel_ne_arrive _ h
    · intro h
      simp only [SrvA.formatDeltaToLabel, if_pos h]
  · intro h60
    refine ⟨((d + 30).toNat / 60), ?_, ?_, ?_⟩
    · simp only [SrvA.formatDeltaToLabel]
      rw [if_neg (show ¬ d < 60 by omega)]
    · omega
    · omega
  · constructor
    · intro h
      by_contra hno
      simp only [P1.formatNext, if_neg hno] at h
      exact minLabel_ne_arrive _ h
    · intro h
      simp only [P1.formatNext, if_pos h]
  · intro h60
    refine ⟨((d + 30).toNat / 60), ?_, ?_, ?_⟩
    · simp only [P1.formatNext]
      rw [if_neg (show ¬ d ≤ 60 by omega)]
    · omega
    · omega

/-- Witness for C4 at delta = 90 in the strict-threshold formatter. -/
theorem C4_label_rules_witness :
    ∃ m : Nat, SrvA.formatDeltaToLabel 90 = toString m ++ " min" ∧
      60 * (m : Int) - 30 ≤ 90 ∧ (90 : Int) < 60 * m + 30 :=
  (C4_label_rules 90).2.1 (by decide)

/-- C5 counterexample: two overlapping windows yield candidates 100 and
105, only five seconds apart, yet `nextTwoFromFrequencies` reports both
of them — not exactly one departure. -/
theorem C5_counterexample :
    P1.nextTwoFromFrequencies 0 [⟨100, 200, 50⟩, ⟨105, 200, 50⟩] = [100, 105] ∧
    (P1.nextTwoFromFrequencies 0 [⟨100, 200, 50⟩, ⟨105, 200, 50⟩]).length ≠ 1 := by
  refine ⟨by decide, by decide⟩

/-- C5 (amended): the stop-time variant's projector drops the next
sorted candidate whenever it is within 10 seconds of the last kept one
(keeping the earlier), so candidates t and t+5 collapse to one there;
the frequency variants' loops drop only exactly-equal consecutive
candidates, so candidates t and t+d with d > 0 are both kept. -/
theorem C5_dedupe_rules :
    (∀ (t d : Nat) (rest : List Nat), d ≤ 10 →
      SrvA.uniqTolGo [] (t :: (t + d) :: rest) = SrvA.uniqTolGo [t] rest) ∧
    (∀ t d : Nat, 0 < d → P1.uniqTwoGo [] [t, t + d] = [t, t + d]) ∧
    (∀ t d : Nat, 0 < d → SrvB.firstTwoGo [] [t, t + d] = [t, t + d]) ∧
    (∀ t : Nat, SrvA.uniqTolGo [] [t, t + 5] = [t]) := by
  have hstep : ∀ (t d : Nat) (rest : List Nat), d ≤ 10 →
      SrvA.uniqTolGo [] (t :: (t + d) :: rest) = SrvA.uniqTolGo [t] rest := by
    intro t d rest hd
    rw [SrvA.uniqTolGo.eq_2]
    rw [if_neg (by simp), if_pos (by simp), List.nil_append]
    rw [SrvA.uniqTolGo.eq_2]
    rw [if_neg (by simp)]
    have hgl : ([t] : List Nat).getLastD 0 = t := rfl
    rw [if_neg (by rw [hgl]; simp; omega)]
  refine ⟨hstep, ?_, ?_, ?_⟩
  · intro t d hd
    rw [P1.uniqTwoGo.eq_2]
    rw [if_neg (by simp)]
    rw [if_neg (by simp), List.nil_append]
    rw [P1.uniqTwoGo.eq_2]
    have hgl : ([t] : List Nat).getLastD 0 = t := rfl
    rw [if_neg (by rw [hgl]; simp; omega), if_pos (by simp)]
    rfl
  · intro t d hd
    rw [SrvB.firstTwoGo.eq_2]
    rw [if_neg (by simp)]
    rw [if_neg (by simp), List.nil_append]
    rw [SrvB.firstTwoGo.eq_2]
    rw [if_neg (by simp)]
    rw [if_neg (by simp; omega)]
    rfl
  · intro t
    rw [hstep t 5 [] (by omega)]
    rfl

/-- Witness for C5's tolerance rule at candidates 100 and 105. -/
theorem C5_dedupe_rules_witness :
    SrvA.uniqTolGo [] [100, 105] = SrvA.uniqTolGo [100] [] := by
  have h := C5_dedupe_rules.1 100 5 [] (by decide)
  exact h

/-- C10 counterexample: at now = 0 exactly one candidate (t1 = 0)
survives, and the second block contains 0 with a fitting headway
(0 + 90 <= 500), yet no synthetic second departure is appended: the
`find` call selects the first containing block, whose headway
overshoots its end. -/
theorem C10_counterexample :
    SrvB.computeNextTwoDepartures 0 [⟨0, 100, 1000⟩, ⟨0, 500, 90⟩] = [0] ∧
    (∃ b ∈ ([⟨0, 100, 1000⟩, ⟨0, 500, 90⟩] : List FreqWindow),
      b.startSec ≤ 0 ∧ 0 ≤ b.endSec ∧ 0 + b.headwaySec ≤ b.endSec) := by
  refine ⟨by decide, ⟨⟨0, 500, 90⟩, by decide, by decide, by decide, by decide⟩⟩

/-- C10 (amended): when exactly one candidate `t1` survives the
selection loop, the synthetic second departure is `t1` plus the headway
of the FIRST block in list order whose `[start, end]` interval contains
`t1`, appended only when that block's end still admits it; a later
containing block that would fit is ignored, and with no containing
block only `t1` is returned. -/
theorem C10_synthetic_second (now t1 : Nat) :
    (∀ (pre post : List FreqWindow) (b0 : FreqWindow),
      SrvB.firstTwoGo [] ((((pre ++ b0 :: post).foldl
          (fun acc b => acc ++ SrvB.blockCands now b) []).insertionSort (· ≤ ·))) = [t1] →
      (∀ b ∈ pre, ¬ (b.startSec ≤ t1 ∧ t1 ≤ b.endSec)) →
      b0.startSec ≤ t1 → t1 ≤ b0.endSec →
      SrvB.computeNextTwoDepartures now (pre ++ b0 :: post) =
        if t1 + b0.headwaySec ≤ b0.endSec then [t1, t1 + b0.headwaySec] else [t1]) ∧
    (∀ blocks : List FreqWindow,
      SrvB.firstTwoGo [] (((blocks.foldl
          (fun acc b => acc ++ SrvB.blockCands now b) []).insertionSort (· ≤ ·))) = [t1] →
      (∀ b ∈ blocks, ¬ (b.startSec ≤ t1 ∧ t1 ≤ b.endSec)) →
      SrvB.computeNextTwoDepartures now blocks = [t1]) := by
  have hlen : ([t1] : List Nat).length = 1 := rfl
  constructor
  · intro pre post b0 hsel hpre hb1 hb2
    simp only [SrvB.computeNextTwoDepartures]
    rw [hsel, if_pos hlen]
    have hfind : List.find? (fun b => decide (b.startSec ≤ t1) && decide (t1 ≤ b.endSec))
        (pre ++ b0 :: post) = some b0 := by
      apply find?_first
      · intro b hbm
        have hng := hpre b hbm
        by_cases hA : b.startSec ≤ t1
        · have hB : ¬ t1 ≤ b.endSec := fun hB => hng ⟨hA, hB⟩
          simp [hA, hB]
        · simp [hA]
      · simp [hb1, hb2]
    show (match List.find? (fun b => decide (b.startSec ≤ t1) && decide (t1 ≤ b.endSec))
        (pre ++ b0 :: post) with
      | some block =>
        if t1 + block.headwaySec ≤ block.endSec then [t1] ++ [t1 + block.headwaySec] else [t1]
      | none => [t1]) = _
    rw [hfind]
    show (if t1 + b0.headwaySec ≤ b0.endSec then [t1] ++ [t1 + b0.headwaySec] else [t1]) = _
    split
    · rfl
    · rfl
  · intro blocks hsel hnone
    simp only [SrvB.computeNextTwoDepartures]
    rw [hsel, if_pos hlen]
    have hfind : List.find? (fun b => decide (b.startSec ≤ t1) && decide (t1 ≤ b.endSec))
        blocks = none := by
      rw [List.find?_eq_none]
      intro b hbm
      have hng := hnone b hbm
      by_cases hA : b.startSec ≤ t1
      · have hB : ¬ t1 ≤ b.endSec := fun hB => hng ⟨hA, hB⟩
        simp [hA, hB]
      · simp [hA]
    show (match List.find? (fun b => decide (b.startSec ≤ t1) && decide (t1 ≤ b.endSec))
        blocks with
      | some block =>
        if t1 + block.headwaySec ≤ block.endSec then [t1] ++ [t1 + block.headwaySec] else [t1]
      | none => [t1]) = _
    rw [hfind]

/-- Witness for C10 with a single block containing the surviving
candidate. -/
theorem C10_synthetic_second_witness :
    SrvB.computeNextTwoDepartures 60 [⟨0, 100, 30⟩] =
      if 60 + 30 ≤ 100 then [60, 60 + 30] else [60] :=
  (C10_synthetic_second 60 60).1 [] [] ⟨0, 100, 30⟩ (by decide) (by simp) (by decide) (by decide)

/-- C9 counterexample: with windows [0,1000,100] and [5000,6000,100] at
now = 50, two candidates per window would keep [100, 200] globally (as
`nextTwoFromFrequencies` does), but `computeNextTwoDepartures` pushes a
single candidate per window and returns [100, 5000]. -/
theorem C9_counterexample :
    SrvB.computeNextTwoDepartures 50 [⟨0, 1000, 100⟩, ⟨5000, 6000, 100⟩] = [100, 5000] ∧
    P1.nextTwoFromFrequencies 50 [⟨0, 1000, 100⟩, ⟨5000, 6000, 100⟩] = [100, 200] ∧
    ([100, 5000] : List Nat) ≠ [100, 200] := by
  refine ⟨by decide, by decide, by decide⟩

/-- C9 (amended): `nextTwoFromFrequencies` gives each live window up to
two candidates — the window's next departure and the one a headway
later, each kept only while <= end — collects them across all windows
and returns an ascending-sorted selection of at most two of them; the
collection loop of `computeNextTwoDepartures` contributes at most ONE
candidate per block. -/
theorem C9_collection :
    (∀ (now : Nat) (w : FreqWindow), (P1.windowCands now w).length ≤ 2 ∧
      ∀ t ∈ P1.windowCands now w, t ≤ w.endSec ∧
        (t = P1.wNext now w ∨ t = P1.wNext now w + w.headwaySec)) ∧
    (∀ (now : Nat) (ws : List FreqWindow),
      (P1.nextTwoFromFrequencies now ws).length ≤ 2 ∧
      (P1.nextTwoFromFrequencies now ws).Sorted (· ≤ ·) ∧
      ∀ t ∈ P1.nextTwoFromFrequencies now ws, ∃ w ∈ ws, t ∈ P1.windowCands now w) ∧
    (∀ (now : Nat) (b : FreqWindow), (SrvB.blockCands now b).length ≤ 1) := by
  refine ⟨?_, ?_, ?_⟩
  · intro now w
    by_cases hdead : w.endSec < now
    · rw [P1.windowCands_empty now w hdead]
      exact ⟨by simp, by simp⟩
    · rw [P1.windowCands_eq now w (by omega)]
      constructor
      · have hle := List.length_filter_le (fun t => decide (t ≤ w.endSec))
          [P1.wNext now w, P1.wNext now w + w.headwaySec]
        simpa using hle
      · intro t ht
        rw [List.mem_filter] at ht
        obtain ⟨hmem, hle⟩ := ht
        refine ⟨by simpa using hle, ?_⟩
        simpa using hmem
  · intro now ws
    have hdef : P1.nextTwoFromFrequencies now ws =
        P1.uniqTwoGo [] ((ws.foldl (fun acc w => acc ++ P1.windowCands now w)
          []).insertionSort (· ≤ ·)) := rfl
    obtain ⟨l', he, hs⟩ := uniqTwoGo_append_sublist
      ((ws.foldl (fun acc w => acc ++ P1.windowCands now w) []).insertionSort (· ≤ ·)) []
    rw [List.nil_append] at he
    refine ⟨?_, ?_, ?_⟩
    · rw [hdef]
      exact uniqTwoGo_length_le _ [] (by simp)
    · rw [hdef, he]
      exact (List.sorted_insertionSort _ _).sublist hs
    · intro t ht
      rw [hdef, he] at ht
      have hmem : t ∈ (ws.foldl (fun acc w => acc ++ P1.windowCands now w) []) := by
        have h1 := hs.subset ht
        exact ((List.perm_insertionSort _ _).mem_iff).mp h1
      have h2 := (mem_foldl_append (P1.windowCands now) ws [] t).mp hmem
      rcases h2 with h2 | h2
      · cases h2
      · exact h2
  · intro now b
    unfold SrvB.blockCands
    split
    · simp
    · split
      · simp
      · dsimp only
        split
        · simp
        · simp

/-- Witness for C9's per-window candidate shape at the rollover
window. -/
theorem C9_collection_witness :
    (86400 : Nat) ≤ 90600 ∧
      ((86400 : Nat) = P1.wNext 86100 ⟨85800, 90600, 600⟩ ∨
       (86400 : Nat) = P1.wNext 86100 ⟨85800, 90600, 600⟩ + 600) :=
  (C9_collection.1 86100 ⟨85800, 90600, 600⟩).2 86400 (by decide)

end STM
